import Mathlib

/-!
Verification development for the ReasoningEngine fuzzy string-matching core.

Strings are modelled as `List Char` (the engine's `FString` is a flat sequence
of code units).  The engine's `float`/`double` values are modelled exactly:
purely rational computations use `ℚ`, and the two metrics whose source uses a
square root (`CalculateCosine` via `FMath::Sqrt`, `CalculateKeyboardDistance`
via `FVector2D::Distance`) are modelled in `ℝ` with `Real.sqrt`.  `int32`
results that the source can drive negative (`CalculateHamming`'s sentinel,
`CalculateDamerauLevenshtein`) are modelled as `ℤ`.

Sources embedded here:
  - `Source/ReasoningEngine/Private/Semantic/REFuzzy.cpp`
  - `Source/ReasoningEngine/Public/Semantic/Data/RESemanticTypes.h`
  - the `URENormalizer` normalizer implementation (accent map, lowercase,
    trim, collapse) used by `UREFuzzy::PrepareString`.
-/

namespace RE

/-- Whitespace predicate modelling `FChar::IsWhitespace` (space and the usual
control whitespace characters). -/
def isWhite (c : Char) : Bool :=
  c = ' ' ∨ c = '\t' ∨ c = '\n' ∨ c = '\r' ∨ c = '\x0b' ∨ c = '\x0c'

/-- Accent-folding character map of `URENormalizer::InitializeAccentMap`
(Latin diacritics to plain letters); characters not in the map are kept. -/
def removeAccentFromChar (c : Char) : Char :=
  if c = 'à' ∨ c = 'á' ∨ c = 'â' ∨ c = 'ã' ∨ c = 'ä' ∨ c = 'å' ∨ c = 'æ' then 'a'
  else if c = 'ç' then 'c'
  else if c = 'è' ∨ c = 'é' ∨ c = 'ê' ∨ c = 'ë' then 'e'
  else if c = 'ì' ∨ c = 'í' ∨ c = 'î' ∨ c = 'ï' then 'i'
  else if c = 'ñ' then 'n'
  else if c = 'ò' ∨ c = 'ó' ∨ c = 'ô' ∨ c = 'õ' ∨ c = 'ö' ∨ c = 'ø' then 'o'
  else if c = 'ù' ∨ c = 'ú' ∨ c = 'û' ∨ c = 'ü' then 'u'
  else if c = 'ý' ∨ c = 'ÿ' then 'y'
  else if c = 'À' ∨ c = 'Á' ∨ c = 'Â' ∨ c = 'Ã' ∨ c = 'Ä' ∨ c = 'Å' ∨ c = 'Æ' then 'A'
  else if c = 'Ç' then 'C'
  else if c = 'È' ∨ c = 'É' ∨ c = 'Ê' ∨ c = 'Ë' then 'E'
  else if c = 'Ì' ∨ c = 'Í' ∨ c = 'Î' ∨ c = 'Ï' then 'I'
  else if c = 'Ñ' then 'N'
  else if c = 'Ò' ∨ c = 'Ó' ∨ c = 'Ô' ∨ c = 'Õ' ∨ c = 'Ö' ∨ c = 'Ø' then 'O'
  else if c = 'Ù' ∨ c = 'Ú' ∨ c = 'Û' ∨ c = 'Ü' then 'U'
  else if c = 'Ý' ∨ c = 'Ÿ' then 'Y'
  else c

/-- `URENormalizer::RemoveAccents`. -/
def removeAccents (s : List Char) : List Char := s.map removeAccentFromChar

/-- `URENormalizer::ToLowercase` (`FString::ToLower`, modelled on the ASCII
range, which is all the claims depend on). -/
def toLowercase (s : List Char) : List Char := s.map Char.toLower

/-- `URENormalizer::TrimWhitespace` (`FString::TrimStartAndEnd`). -/
def trimWhitespace (s : List Char) : List Char :=
  ((s.dropWhile (isWhite ·)).reverse.dropWhile (isWhite ·)).reverse

/-- `URENormalizer::CollapseWhitespace`: every maximal run of whitespace is
replaced by a single space. -/
def collapseWhitespace (s : List Char) : List Char :=
  (s.foldl
    (fun (st : List Char × Bool) ch =>
      if isWhite ch then
        if st.2 then st else (' ' :: st.1, true)
      else (ch :: st.1, false))
    ([], false)).1.reverse

/-- `URENormalizer::Normalize` with its default configuration: remove
accents, then lowercase, then trim, then collapse whitespace. -/
def normalize (s : List Char) : List Char :=
  collapseWhitespace (trimWhitespace (toLowercase (removeAccents s)))

/-- `UREFuzzy::PrepareString`. -/
def prepareString (input : List Char) (bNormalize : Bool) : List Char :=
  if bNormalize then normalize input else input

/-- `EREFuzzyAlgorithm` from `RESemanticTypes.h`. -/
inductive EREFuzzyAlgorithm where
  | Levenshtein
  | DamerauLevenshtein
  | OptimalAlignment
  | Hamming
  | Jaro
  | JaroWinkler
  | LCS
  | LCSS
  | Jaccard
  | Dice
  | Cosine
  | Soundex
  | Metaphone
  | KeyboardDistance
  | Auto
deriving DecidableEq, Repr

-- ========== EDIT DISTANCE ALGORITHMS ==========

/-- Modelled from the spec: `UREFuzzy::CalculateLevenshtein` delegates to
`Algo::LevenshteinDistance`, Unreal engine code that is not part of this
repository; per the spec (§4.2) it is the minimum number of single-character
insertions, deletions and substitutions, here the classic recurrence. -/
def calculateLevenshtein : List Char → List Char → ℕ
  | [], b => b.length
  | a, [] => a.length
  | x :: xs, y :: ys =>
    if x = y then calculateLevenshtein xs ys
    else 1 + min (calculateLevenshtein xs (y :: ys))
               (min (calculateLevenshtein (x :: xs) ys) (calculateLevenshtein xs ys))

/-- Matrix read `H[i][j]`, out-of-range reads defaulting to the value the
zero-initialising `TArray::SetNum` put there. -/
def mget (H : List (List ℤ)) (i j : ℕ) : ℤ := (H.getD i []).getD j 0

/-- Matrix write `H[i][j] = v` (no-op out of range, like the source never
does). -/
def mset (H : List (List ℤ)) (i j : ℕ) (v : ℤ) : List (List ℤ) :=
  H.set i ((H.getD i []).set j v)

/-- One inner-loop step (`j` iteration) of `UREFuzzy::CalculateDamerauLevenshtein`;
the state carries the matrix and the running `DB`.  Note the source updates
`DB` before the transposition term is read, and its `K` search finds the
first occurrence of `B[j-1]` anywhere in `A`. -/
def dlStep (A B : List Char) (lenA : ℕ) (i : ℕ)
    (st : List (List ℤ) × ℕ) (j : ℕ) : List (List ℤ) × ℕ :=
  let H := st.1
  let K0 := st.2
  let DB : ℕ := if A.get? (i - 1) = B.get? (j - 1) then j else st.2
  let L : ℤ := if A.get? (i - 1) = B.get? (j - 1) then 0 else 1
  let K : ℕ :=
    (((List.range' 1 lenA).find? (fun M => A.get? (M - 1) = B.get? (j - 1))).getD K0)
  let trans : ℤ := mget H K DB + ((i : ℤ) - (K : ℤ) - 1) + 1 + ((j : ℤ) - (DB : ℤ) - 1)
  let v : ℤ :=
    min (min (min (mget H i j + L) (mget H (i + 1) j + 1)) (mget H i (j + 1) + 1)) trans
  (mset H (i + 1) (j + 1) v, DB)

/-- `UREFuzzy::CalculateDamerauLevenshtein`, translated loop for loop:
`(LenA+2) x (LenB+2)` zero-initialised matrix, sentinel `LenA+LenB` seeds,
then the source's recurrence (including its pre-updated `DB` and its
first-occurrence `K` search). -/
def calculateDamerauLevenshtein (A B : List Char) : ℤ :=
  let lenA := A.length
  let lenB := B.length
  if lenA = 0 then (lenB : ℤ)
  else if lenB = 0 then (lenA : ℤ)
  else
    let maxDist : ℤ := (lenA : ℤ) + (lenB : ℤ)
    let H0 : List (List ℤ) := List.replicate (lenA + 2) (List.replicate (lenB + 2) 0)
    let H1 := mset H0 0 0 maxDist
    let H2 := (List.range (lenA + 1)).foldl
      (fun H i => mset (mset H (i + 1) 0 maxDist) (i + 1) 1 (i : ℤ)) H1
    let H3 := (List.range (lenB + 1)).foldl
      (fun H j => mset (mset H 0 (j + 1) maxDist) 1 (j + 1) (j : ℤ)) H2
    let Hfin := (List.range' 1 lenA).foldl
      (fun H i => ((List.range' 1 lenB).foldl (dlStep A B lenA i) (H, 0)).1) H3
    mget Hfin (lenA + 1) (lenB + 1)

/-- `UREFuzzy::CalculateHamming`: `-1` sentinel for different lengths,
otherwise the per-position mismatch count. -/
def calculateHamming (A B : List Char) : ℤ :=
  if A.length ≠ B.length then -1
  else ((List.range A.length).countP (fun i => A.get? i ≠ B.get? i) : ℤ)

-- ========== SIMILARITY ALGORITHMS ==========

/-- The match-marking loop of `UREFuzzy::CalculateJaro`: for each index `i`
of `A` (walked as the remaining character list), find the first unmarked
`j` in the window `[max(0,i-w), min(i+w+1, LenB))` with `A[i] == B[j]` and
mark both sides.  State: `(MatchesA, MatchesB, Matches)`. -/
def jaroMatchGo (B : List Char) (w : ℕ) :
    ℕ → List Char → List Bool → List Bool → ℕ → List Bool × List Bool × ℕ
  | _, [], mA, mB, m => (mA, mB, m)
  | i, c :: rest, mA, mB, m =>
    match (List.range' (i - w) (min (i + w + 1) B.length - (i - w))).find?
        (fun j => decide (mB.getD j false = false ∧ B.get? j = some c)) with
    | some j => jaroMatchGo B w (i + 1) rest (mA.set i true) (mB.set j true) (m + 1)
    | none => jaroMatchGo B w (i + 1) rest mA mB m

/-- The `while (!MatchesB[K]) K++` advance of the transposition count:
smallest marked index `≥ k` (length of `MatchesB` if none, which the
source's invariant never reaches). -/
def findNextTrue (mB : List Bool) (k : ℕ) : ℕ :=
  ((List.range' k (mB.length - k)).find? (fun j => mB.getD j false)).getD mB.length

/-- The transposition-counting loop of `UREFuzzy::CalculateJaro`: walk the
indices of `A`, skip unmatched ones, pair each matched `A[i]` with the next
marked index of `MatchesB` and count the pairs that differ. -/
def jaroTransGo (B : List Char) (mA mB : List Bool) :
    ℕ → List Char → ℕ → ℕ → ℕ
  | _, [], _, t => t
  | i, c :: rest, k, t =>
    if mA.getD i false = false then jaroTransGo B mA mB (i + 1) rest k t
    else
      let k2 := findNextTrue mB k
      let t2 := if B.get? k2 ≠ some c then t + 1 else t
      jaroTransGo B mA mB (i + 1) rest (k2 + 1) t2

/-- Match phase of `UREFuzzy::CalculateJaro`: window
`max(max(LenA,LenB)/2 - 1, 1)`, fresh mark arrays, match marking from
index 0. -/
def jaroMatchResult (A B : List Char) : List Bool × List Bool × ℕ :=
  jaroMatchGo B (max (max A.length B.length / 2 - 1) 1) 0 A
    (List.replicate A.length false) (List.replicate B.length false) 0

/-- `UREFuzzy::CalculateJaro`: empty check, identity short-circuit, match
marking, transposition count, and the three-term average (with the source's
integer `Transpositions / 2`). -/
def calculateJaro (A B : List Char) : ℚ :=
  if A = [] ∨ B = [] then 0
  else if A = B then 1
  else
    let r := jaroMatchResult A B
    if r.2.2 = 0 then 0
    else
      let t := jaroTransGo B r.1 r.2.1 0 A 0 0
      ((r.2.2 : ℚ) / A.length + (r.2.2 : ℚ) / B.length +
        (((r.2.2 : ℤ) - (t / 2 : ℕ) : ℤ) : ℚ) / r.2.2) / 3

/-- The common-leading-characters loop of `UREFuzzy::CalculateJaroWinkler`,
bounded by the fuel `MaxPrefix` and stopping at the first mismatch. -/
def prefixLenGo : List Char → List Char → ℕ → ℕ
  | x :: xs, y :: ys, Nat.succ f => if x = y then 1 + prefixLenGo xs ys f else 0
  | _, _, _ => 0

/-- `UREFuzzy::CalculateJaroWinkler` with explicit `PrefixScale`. -/
def calculateJaroWinkler (A B : List Char) (PrefixScale : ℚ) : ℚ :=
  let JaroSim := calculateJaro A B
  if JaroSim < 7 / 10 then JaroSim
  else
    let maxPref := min (min A.length B.length) 4
    let prefLen := prefixLenGo A B maxPref
    JaroSim + prefLen * PrefixScale * (1 - JaroSim)

/-- `UREFuzzy::CalculateJaroWinkler` at its default `PrefixScale = 0.1f`. -/
def calculateJaroWinklerDefault (A B : List Char) : ℚ :=
  calculateJaroWinkler A B (1 / 10)

-- ========== SUBSEQUENCE ALGORITHMS ==========

/-- `UREFuzzy::CalculateLCS` (longest common subsequence length); the
source's row/column dynamic program computes exactly this recurrence. -/
def calculateLCS : List Char → List Char → ℕ
  | [], _ => 0
  | _, [] => 0
  | x :: xs, y :: ys =>
    if x = y then calculateLCS xs ys + 1
    else max (calculateLCS xs (y :: ys)) (calculateLCS (x :: xs) ys)

/-- Length of the common prefix of two lists (helper for `calculateLCSS`). -/
def commonRunLen : List Char → List Char → ℕ
  | x :: xs, y :: ys => if x = y then 1 + commonRunLen xs ys else 0
  | _, _ => 0

/-- `UREFuzzy::CalculateLCSS` (longest common contiguous substring): the
source's suffix matrix takes the maximum over all cell values, which is the
maximum common run starting at any pair of suffixes. -/
def calculateLCSS (A B : List Char) : ℕ :=
  (A.tails.map (fun sa => (B.tails.map (fun sb => commonRunLen sa sb)).foldr max 0)).foldr max 0

-- ========== N-GRAM ALGORITHMS ==========

/-- `FRENGramSet` from `RESemanticTypes.h`; `Grams` models the `TMap`
as an insertion-ordered association list with unique keys. -/
structure FRENGramSet where
  N : ℕ
  SourceString : List Char
  Grams : List (List Char × ℕ)
  TotalGrams : ℕ
deriving DecidableEq, Repr

/-- `FString::Mid(i, n)`. -/
def strMid (s : List Char) (i n : ℕ) : List Char := (s.drop i).take n

/-- `Grams.FindOrAdd(Gram)` followed by `Count++`: bump the first entry with
this key, or append a fresh entry with count 1. -/
def findOrAddInc (gs : List (List Char × ℕ)) (g : List Char) : List (List Char × ℕ) :=
  match gs with
  | [] => [(g, 1)]
  | (k, v) :: t => if k = g then (k, v + 1) :: t else (k, v) :: findOrAddInc t g

/-- First-match count lookup in a gram map (`TMap::Find`). -/
def lookupCount (gs : List (List Char × ℕ)) (g : List Char) : Option ℕ :=
  (gs.find? (fun p => p.1 = g)).map (fun p => p.2)

/-- `UREFuzzy::GenerateNGrams`: degenerate single whole-string gram when the
source is shorter than `N`, else a sliding window with per-gram counts and a
total-gram counter incremented once per window position. -/
def generateNGrams (Source : List Char) (N : ℕ) : FRENGramSet :=
  if Source.length < N then
    { N := N, SourceString := Source, Grams := [(Source, 1)], TotalGrams := 1 }
  else
    let r := (List.range (Source.length - N + 1)).foldl
      (fun (st : List (List Char × ℕ) × ℕ) i =>
        (findOrAddInc st.1 (strMid Source i N), st.2 + 1))
      ([], 0)
    { N := N, SourceString := Source, Grams := r.1, TotalGrams := r.2 }

/-- `UREFuzzy::CalculateDice`: multiset intersection (sum of per-gram count
minima over A's entries that B also holds) against the total gram counts. -/
def calculateDice (A B : List Char) (N : ℕ) : ℚ :=
  if A = [] ∨ B = [] then 0
  else if A = B then 1
  else
    let GramsA := generateNGrams A N
    let GramsB := generateNGrams B N
    let inter : ℕ := (GramsA.Grams.map
      (fun p => match lookupCount GramsB.Grams p.1 with
        | some cB => min p.2 cB
        | none => 0)).sum
    (2 * (inter : ℚ)) / ((GramsA.TotalGrams : ℚ) + (GramsB.TotalGrams : ℚ))

/-- `UREFuzzy::CalculateJaccard`: distinct-gram set semantics (the source's
`TSet` union and intersection, modelled as finsets of keys). -/
def calculateJaccard (A B : List Char) (N : ℕ) : ℚ :=
  if A = [] ∨ B = [] then 0
  else if A = B then 1
  else
    let GramsA := generateNGrams A N
    let GramsB := generateNGrams B N
    let keysA := GramsA.Grams.map (fun p => p.1)
    let keysB := GramsB.Grams.map (fun p => p.1)
    let unionS := keysA.toFinset ∪ keysB.toFinset
    let interS := (keysA.filter (fun g => decide (lookupCount GramsB.Grams g ≠ none))).toFinset
    if unionS.card = 0 then 0
    else (interS.card : ℚ) / (unionS.card : ℚ)

/-- Gram-vector dot product of `UREFuzzy::CalculateCosine`: `CountA * CountB`
summed over A's entries that B also holds. -/
def cosineDot (GA GB : List (List Char × ℕ)) : ℕ :=
  (GA.map (fun p => match lookupCount GB p.1 with
    | some cB => p.2 * cB
    | none => 0)).sum

/-- Squared gram-vector magnitude of `UREFuzzy::CalculateCosine`. -/
def cosineMagSq (G : List (List Char × ℕ)) : ℕ :=
  (G.map (fun p => p.2 * p.2)).sum

/-- `UREFuzzy::CalculateCosine`: dot product over the product of Euclidean
magnitudes (`FMath::Sqrt`, hence `Real.sqrt` and a real result). -/
noncomputable def calculateCosine (A B : List Char) (N : ℕ) : ℝ :=
  if A = [] ∨ B = [] then 0
  else if A = B then 1
  else
    let GramsA := generateNGrams A N
    let GramsB := generateNGrams B N
    let dot := cosineDot GramsA.Grams GramsB.Grams
    let magA := cosineMagSq GramsA.Grams
    let magB := cosineMagSq GramsB.Grams
    if magA = 0 ∨ magB = 0 then 0
    else (dot : ℝ) / (Real.sqrt (magA : ℝ) * Real.sqrt (magB : ℝ))

-- ========== PHONETIC ALGORITHMS ==========

/-- The Soundex digit classes of `UREFuzzy::InitializePhoneticMaps`
(vowels and `H`/`W`/`Y` unmapped). -/
def soundexCode (c : Char) : Option Char :=
  if c = 'B' ∨ c = 'F' ∨ c = 'P' ∨ c = 'V' then some '1'
  else if c = 'C' ∨ c = 'G' ∨ c = 'J' ∨ c = 'K' ∨ c = 'Q' ∨ c = 'S' ∨ c = 'X' ∨ c = 'Z' then
    some '2'
  else if c = 'D' ∨ c = 'T' then some '3'
  else if c = 'L' then some '4'
  else if c = 'M' ∨ c = 'N' then some '5'
  else if c = 'R' then some '6'
  else none

/-- Main loop of `UREFuzzy::GenerateSoundex`: append each new digit class
(dropping immediate repeats), reset the repeat tracker on non-alphabetic
characters, stop once four characters are accumulated. -/
def soundexGo : List Char → Char → List Char → List Char
  | [], _, acc => acc
  | c :: rest, last, acc =>
    if acc.length < 4 then
      match soundexCode c with
      | some code =>
        if code ≠ last then soundexGo rest code (acc ++ [code])
        else soundexGo rest last acc
      | none =>
        if ¬ c.isAlpha then soundexGo rest '0' acc
        else soundexGo rest last acc
    else acc

/-- `UREFuzzy::GenerateSoundex`: `"0000"` for empty input, else first letter
uppercased, digit classes, zero padding to four characters. -/
def generateSoundex (Input : List Char) : List Char :=
  if Input = [] then ['0', '0', '0', '0']
  else
    let Upper := Input.map Char.toUpper
    let res := soundexGo Upper.tail '0' [Upper.headD '0']
    res ++ List.replicate (4 - res.length) '0'

/-- Main loop of `UREFuzzy::GenerateMetaphone` (the simplified per-character
switch).  `prev` is the previously consumed uppercase character (`none` at
position zero), and the loop stops once the primary encoding holds four
characters.  Cases that skip the following character recurse on `rest.tail`. -/
def metaGo : Option Char → List Char → List Char → List Char → List Char × List Char
  | _, [], p, s => (p, s)
  | prev, c :: rest, p, s =>
    if 4 ≤ p.length then (p, s)
    else if c = 'A' ∨ c = 'E' ∨ c = 'I' ∨ c = 'O' ∨ c = 'U' ∨ c = 'Y' then
      if prev = none then metaGo (some c) rest (p ++ [c]) (s ++ [c])
      else metaGo (some c) rest p s
    else if c = 'B' then
      if rest.head? = some 'B' then metaGo (some 'B') rest.tail (p ++ ['B']) (s ++ ['B'])
      else metaGo (some c) rest (p ++ ['B']) (s ++ ['B'])
    else if c = 'C' then
      if rest.head? = some 'H' then metaGo (some 'H') rest.tail (p ++ ['X']) (s ++ ['X'])
      else if rest.head? = some 'I' ∨ rest.head? = some 'E' ∨ rest.head? = some 'Y' then
        metaGo (some c) rest (p ++ ['S']) (s ++ ['S'])
      else metaGo (some c) rest (p ++ ['K']) (s ++ ['K'])
    else if c = 'D' then metaGo (some c) rest (p ++ ['T']) (s ++ ['T'])
    else if c = 'F' then metaGo (some c) rest (p ++ ['F']) (s ++ ['F'])
    else if c = 'G' then
      if rest.head? = some 'H' then metaGo (some 'H') rest.tail (p ++ ['K']) (s ++ ['K'])
      else metaGo (some c) rest (p ++ ['K']) (s ++ ['K'])
    else if c = 'H' then
      if (prev.elim true (fun pc => ¬ pc.isAlpha)) ∧ (rest.head?.elim false Char.isAlpha) then
        metaGo (some c) rest (p ++ ['H']) (s ++ ['H'])
      else metaGo (some c) rest p s
    else if c = 'J' then metaGo (some c) rest (p ++ ['J']) (s ++ ['J'])
    else if c = 'K' then metaGo (some c) rest (p ++ ['K']) (s ++ ['K'])
    else if c = 'L' then metaGo (some c) rest (p ++ ['L']) (s ++ ['L'])
    else if c = 'M' then metaGo (some c) rest (p ++ ['M']) (s ++ ['M'])
    else if c = 'N' then metaGo (some c) rest (p ++ ['N']) (s ++ ['N'])
    else if c = 'P' then
      if rest.head? = some 'H' then metaGo (some 'H') rest.tail (p ++ ['F']) (s ++ ['F'])
      else metaGo (some c) rest (p ++ ['P']) (s ++ ['P'])
    else if c = 'Q' then metaGo (some c) rest (p ++ ['K']) (s ++ ['K'])
    else if c = 'R' then metaGo (some c) rest (p ++ ['R']) (s ++ ['R'])
    else if c = 'S' then metaGo (some c) rest (p ++ ['S']) (s ++ ['S'])
    else if c = 'T' then
      if rest.head? = some 'H' then metaGo (some 'H') rest.tail (p ++ ['0']) (s ++ ['T'])
      else metaGo (some c) rest (p ++ ['T']) (s ++ ['T'])
    else if c = 'V' then metaGo (some c) rest (p ++ ['F']) (s ++ ['F'])
    else if c = 'W' then metaGo (some c) rest (p ++ ['W']) (s ++ ['W'])
    else if c = 'X' then metaGo (some c) rest (p ++ ['K', 'S']) (s ++ ['K', 'S'])
    else if c = 'Z' then metaGo (some c) rest (p ++ ['S']) (s ++ ['S'])
    else metaGo (some c) rest p s
termination_by _ l _ _ => l.length
decreasing_by all_goals simp_wf <;> omega

/-- `UREFuzzy::GenerateMetaphone`: empty input yields a single empty
encoding; silent leading pairs `GN`/`KN`/`PN`/`WR` are skipped; a leading
`X` becomes `S`; the secondary encoding is appended when requested and
different. -/
def generateMetaphone (Input : List Char) (bDouble : Bool) : List (List Char) :=
  if Input = [] then [[]]
  else
    let Upper := Input.map Char.toUpper
    let st : Option Char × List Char × List Char × List Char :=
      match Upper with
      | u0 :: u1 :: _ =>
        if (u0 = 'G' ∧ u1 = 'N') ∨ (u0 = 'K' ∧ u1 = 'N') ∨
           (u0 = 'P' ∧ u1 = 'N') ∨ (u0 = 'W' ∧ u1 = 'R') then
          (some u0, Upper.tail, [], [])
        else if u0 = 'X' then (some 'X', Upper.tail, ['S'], ['S'])
        else (none, Upper, [], [])
      | _ => (none, Upper, [], [])
    let r := metaGo st.1 st.2.1 st.2.2.1 st.2.2.2
    [r.1] ++ (if bDouble ∧ r.2 ≠ r.1 then [r.2] else [])

-- ========== TYPO/VISUAL ALGORITHMS ==========

/-- The QWERTY coordinate table of `UREFuzzy::InitializeKeyboardLayout`. -/
def keyboardLayout (c : Char) : Option (ℚ × ℚ) :=
  if c = '1' then some (0, 0) else if c = '2' then some (1, 0)
  else if c = '3' then some (2, 0) else if c = '4' then some (3, 0)
  else if c = '5' then some (4, 0) else if c = '6' then some (5, 0)
  else if c = '7' then some (6, 0) else if c = '8' then some (7, 0)
  else if c = '9' then some (8, 0) else if c = '0' then some (9, 0)
  else if c = 'q' then some (0, 1) else if c = 'w' then some (1, 1)
  else if c = 'e' then some (2, 1) else if c = 'r' then some (3, 1)
  else if c = 't' then some (4, 1) else if c = 'y' then some (5, 1)
  else if c = 'u' then some (6, 1) else if c = 'i' then some (7, 1)
  else if c = 'o' then some (8, 1) else if c = 'p' then some (9, 1)
  else if c = 'a' then some (1/4, 2) else if c = 's' then some (5/4, 2)
  else if c = 'd' then some (9/4, 2) else if c = 'f' then some (13/4, 2)
  else if c = 'g' then some (17/4, 2) else if c = 'h' then some (21/4, 2)
  else if c = 'j' then some (25/4, 2) else if c = 'k' then some (29/4, 2)
  else if c = 'l' then some (33/4, 2)
  else if c = 'z' then some (1/2, 3) else if c = 'x' then some (3/2, 3)
  else if c = 'c' then some (5/2, 3) else if c = 'v' then some (7/2, 3)
  else if c = 'b' then some (9/2, 3) else if c = 'n' then some (11/2, 3)
  else if c = 'm' then some (13/2, 3)
  else none

/-- `UREFuzzy::CalculateKeyboardDistance`: per-position comparison over the
shorter length (Euclidean key distance via `FVector2D::Distance`, clamped),
averaged and multiplied by the length penalty. -/
noncomputable def calculateKeyboardDistance (A B : List Char) : ℝ :=
  if A = [] ∨ B = [] then 0
  else if A = B then 1
  else
    let minLen := min A.length B.length
    let total : ℝ := ((List.range minLen).map (fun i =>
      let ca := (A.getD i ' ').toLower
      let cb := (B.getD i ' ').toLower
      if ca = cb then (1 : ℝ)
      else
        match keyboardLayout ca, keyboardLayout cb with
        | some pa, some pb =>
          let dist : ℝ :=
            Real.sqrt ((((pa.1 - pb.1 : ℚ)) : ℝ) ^ 2 + (((pa.2 - pb.2 : ℚ)) : ℝ) ^ 2)
          max 0 (min (1 - dist / 10) 1)
        | _, _ => 0)).sum
    let penalty : ℚ :=
      1 - (((A.length : ℤ) - (B.length : ℤ)).natAbs : ℚ) / (max A.length B.length : ℚ)
    if 0 < minLen then (total / (minLen : ℝ)) * (penalty : ℝ) else 0

-- ========== AGGREGATOR ==========

/-- `FREStringMatch` from `RESemanticTypes.h` with the header's field
defaults (wall-clock timing and cache metadata are not modelled). -/
structure FREStringMatch where
  StringA : List Char := []
  StringB : List Char := []
  LevenshteinDistance : ℤ := 0
  NormalizedLevenshtein : ℚ := 0
  DamerauLevenshteinDistance : ℤ := 0
  HammingDistance : ℤ := -1
  OptimalAlignmentDistance : ℤ := 0
  JaroSimilarity : ℚ := 0
  JaroWinklerSimilarity : ℚ := 0
  LongestCommonSubsequence : ℤ := 0
  LongestCommonSubstring : ℤ := 0
  DiceCoefficient : ℚ := 0
  JaccardIndex : ℚ := 0
  CosineSimilarity : ℝ := 0
  bSoundexMatch : Bool := false
  bMetaphoneMatch : Bool := false
  SoundexA : List Char := []
  SoundexB : List Char := []
  KeyboardDistance : ℝ := 0
  bVisuallyConfusable : Bool := false
  BestSimilarity : ℝ := 0

/-- `FREStringMatch::GetBestSimilarity`: running maximum over the
normalized-Levenshtein, Jaro-Winkler, Dice, Jaccard and Cosine scores. -/
noncomputable def FREStringMatch.GetBestSimilarity (r : FREStringMatch) : ℝ :=
  max (max (max (max ((r.NormalizedLevenshtein : ℝ)) ((r.JaroWinklerSimilarity : ℝ)))
    ((r.DiceCoefficient : ℝ))) ((r.JaccardIndex : ℝ))) r.CosineSimilarity

/-- `UREFuzzy::CompareStrings`: equal prepared strings short-circuit to the
partially filled "perfect match" record, an empty prepared string
short-circuits to the default record, else every metric is computed. -/
noncomputable def compareStrings (A B : List Char) (bNormalize : Bool) : FREStringMatch :=
  let PreparedA := prepareString A bNormalize
  let PreparedB := prepareString B bNormalize
  if PreparedA = PreparedB then
    { StringA := A, StringB := B,
      NormalizedLevenshtein := 1, JaroWinklerSimilarity := 1,
      DiceCoefficient := 1, CosineSimilarity := 1, JaccardIndex := 1,
      bSoundexMatch := true, bMetaphoneMatch := true }
  else if PreparedA = [] ∨ PreparedB = [] then
    { StringA := A, StringB := B }
  else
    let lev := calculateLevenshtein PreparedA PreparedB
    let metaA := generateMetaphone PreparedA true
    let metaB := generateMetaphone PreparedB true
    { StringA := A, StringB := B,
      LevenshteinDistance := (lev : ℤ),
      NormalizedLevenshtein :=
        1 - (lev : ℚ) / (max PreparedA.length PreparedB.length : ℚ),
      DamerauLevenshteinDistance := calculateDamerauLevenshtein PreparedA PreparedB,
      HammingDistance := calculateHamming PreparedA PreparedB,
      JaroSimilarity := calculateJaro PreparedA PreparedB,
      JaroWinklerSimilarity := calculateJaroWinklerDefault PreparedA PreparedB,
      LongestCommonSubsequence := (calculateLCS PreparedA PreparedB : ℤ),
      LongestCommonSubstring := (calculateLCSS PreparedA PreparedB : ℤ),
      DiceCoefficient := calculateDice PreparedA PreparedB 2,
      JaccardIndex := calculateJaccard PreparedA PreparedB 2,
      CosineSimilarity := calculateCosine PreparedA PreparedB 2,
      bSoundexMatch := decide (generateSoundex PreparedA = generateSoundex PreparedB),
      bMetaphoneMatch := metaA.any (fun ma => metaB.any (fun mb => decide (mb = ma))),
      KeyboardDistance := calculateKeyboardDistance PreparedA PreparedB }

/-- `UREFuzzy::CompareStringsWithAlgo`: run `CompareStrings`, then fill
`BestSimilarity` from the selected algorithm (Levenshtein/Damerau/Hamming
distances are length-normalized here, the latter two against the raw input
lengths). -/
noncomputable def compareStringsWithAlgo (A B : List Char)
    (Algorithm : EREFuzzyAlgorithm) (bNormalize : Bool) : FREStringMatch :=
  let R := compareStrings A B bNormalize
  let best : ℝ :=
    match Algorithm with
    | .Levenshtein => (R.NormalizedLevenshtein : ℝ)
    | .DamerauLevenshtein =>
      1 - (R.DamerauLevenshteinDistance : ℝ) / (max A.length B.length : ℝ)
    | .Hamming => 1 - (R.HammingDistance : ℝ) / (max A.length B.length : ℝ)
    | .JaroWinkler => (R.JaroWinklerSimilarity : ℝ)
    | .Dice => (R.DiceCoefficient : ℝ)
    | .Cosine => R.CosineSimilarity
    | .Jaccard => (R.JaccardIndex : ℝ)
    | .Soundex => if R.bSoundexMatch then 1 else 0
    | .Metaphone => if R.bMetaphoneMatch then 1 else 0
    | _ => R.GetBestSimilarity
  { R with BestSimilarity := best }

/-- `UREFuzzy::GetSimilarity`: the single-metric fast path.  The switch has
no case for `Hamming`, `OptimalAlignment`, `LCS`, `LCSS`, `Soundex` or
`Metaphone`, so those selectors fall to the `Auto`/default Jaro-Winkler
branch. -/
noncomputable def getSimilarity (A B : List Char)
    (Algorithm : EREFuzzyAlgorithm) (bNormalize : Bool) : ℝ :=
  let PreparedA := prepareString A bNormalize
  let PreparedB := prepareString B bNormalize
  if PreparedA = PreparedB then 1
  else if PreparedA = [] ∨ PreparedB = [] then 0
  else
    match Algorithm with
    | .Levenshtein =>
      ((1 - (calculateLevenshtein PreparedA PreparedB : ℚ) /
        (max PreparedA.length PreparedB.length : ℚ) : ℚ) : ℝ)
    | .DamerauLevenshtein =>
      ((1 - (calculateDamerauLevenshtein PreparedA PreparedB : ℚ) /
        (max PreparedA.length PreparedB.length : ℚ) : ℚ) : ℝ)
    | .Jaro => ((calculateJaro PreparedA PreparedB : ℚ) : ℝ)
    | .JaroWinkler => ((calculateJaroWinklerDefault PreparedA PreparedB : ℚ) : ℝ)
    | .Dice => ((calculateDice PreparedA PreparedB 2 : ℚ) : ℝ)
    | .Jaccard => ((calculateJaccard PreparedA PreparedB 2 : ℚ) : ℝ)
    | .Cosine => calculateCosine PreparedA PreparedB 2
    | .KeyboardDistance => calculateKeyboardDistance PreparedA PreparedB
    | _ => ((calculateJaroWinklerDefault PreparedA PreparedB : ℚ) : ℝ)

-- ========== BATCH SEARCH ==========

section BatchSearch

open Classical

/-- Insertion of one scored candidate into an already sorted run, using the
comparator `A.Value > B.Value` passed to `TArray::Sort`. -/
noncomputable def fbInsert (x : List Char × ℝ) :
    List (List Char × ℝ) → List (List Char × ℝ)
  | [] => [x]
  | y :: ys => if x.2 > y.2 then x :: y :: ys else y :: fbInsert x ys

/-- Model of the `TArray::Sort` call in `UREFuzzy::FindBestMatches`
(comparison sort under the predicate `A.Value > B.Value`; the engine
routine guarantees a sorted permutation, modelled here as an insertion
sort). -/
noncomputable def sortByScore (l : List (List Char × ℝ)) : List (List Char × ℝ) :=
  l.foldr fbInsert []

/-- The scored-candidate accumulation loop of `UREFuzzy::FindBestMatches`:
every candidate is paired with `GetSimilarity(Query, Candidate, Algorithm,
true)` and kept when `Score >= MinSimilarity`. -/
noncomputable def fbScored (Query : List Char) (Candidates : List (List Char))
    (MinSimilarity : ℝ) (Algorithm : EREFuzzyAlgorithm) : List (List Char × ℝ) :=
  (Candidates.map (fun c => (c, getSimilarity Query c Algorithm true))).filter
    (fun p => MinSimilarity ≤ p.2)

/-- `UREFuzzy::FindBestMatches`: score and threshold every candidate, sort
descending, return the first `min(MaxResults, Num)` candidate strings. -/
noncomputable def findBestMatches (Query : List Char) (Candidates : List (List Char))
    (MaxResults : ℕ) (MinSimilarity : ℝ) (Algorithm : EREFuzzyAlgorithm) :
    List (List Char) :=
  let sorted := sortByScore (fbScored Query Candidates MinSimilarity Algorithm)
  (sorted.take (min MaxResults sorted.length)).map (fun p => p.1)

end BatchSearch

-- ========== SPEC-SIDE DEFINITIONS ==========

/-- Count of positions at which two equal-length strings differ (the spec's
description of the Hamming distance, stated over the zipped characters). -/
def hammingSpecCount (A B : List Char) : ℕ :=
  (A.zip B).countP (fun p => p.1 ≠ p.2)

/-- Sum of the per-gram occurrence counts of a gram map. -/
def sumCounts (gs : List (List Char × ℕ)) : ℕ := (gs.map (fun p => p.2)).sum

/-- Total count lookup in a gram map, zero when the key is absent. -/
def lkD (gs : List (List Char × ℕ)) (g : List Char) : ℕ := (lookupCount gs g).getD 0

/-- Removal of the first entry with a given key (proof helper). -/
def eraseKey (gs : List (List Char × ℕ)) (g : List Char) : List (List Char × ℕ) :=
  match gs with
  | [] => []
  | (k, v) :: t => if k = g then t else (k, v) :: eraseKey t g

end RE

-- ========== LEMMAS AND CLAIM THEOREMS ==========

open RE

namespace REProof

/-- Index-based mismatch counting equals zip-based mismatch counting. -/
lemma countP_range_eq_zip (A B : List Char) (h : A.length = B.length) :
    (List.range A.length).countP (fun i => decide (A.get? i ≠ B.get? i)) =
      (A.zip B).countP (fun p => decide (p.1 ≠ p.2)) := by
  induction A generalizing B with
  | nil => simp
  | cons x xs ih =>
    cases B with
    | nil => simp at h
    | cons y ys =>
      have h' : xs.length = ys.length := by simpa using h
      have key : ((fun i => decide ((x :: xs).get? i ≠ (y :: ys).get? i)) ∘ Nat.succ)
          = fun i => decide (xs.get? i ≠ ys.get? i) := by
        funext i
        simp
      simp only [List.length_cons, List.range_succ_eq_map, List.countP_cons,
        List.countP_map, List.zip_cons_cons, key, ih ys h']
      simp

lemma findOrAddInc_sum (gs : List (List Char × ℕ)) (g : List Char) :
    sumCounts (findOrAddInc gs g) = sumCounts gs + 1 := by
  induction gs with
  | nil => simp [findOrAddInc, sumCounts]
  | cons p t ih =>
    obtain ⟨k, v⟩ := p
    by_cases hk : k = g
    · simp [findOrAddInc, hk, sumCounts]
      ring
    · simp [findOrAddInc, hk, sumCounts] at ih ⊢
      omega

lemma ngramFold_sum (Source : List Char) (N : ℕ) (l : List ℕ)
    (st : List (List Char × ℕ) × ℕ) (h : sumCounts st.1 = st.2) :
    sumCounts (l.foldl
      (fun (st : List (List Char × ℕ) × ℕ) i =>
        (findOrAddInc st.1 (strMid Source i N), st.2 + 1)) st).1 =
    (l.foldl
      (fun (st : List (List Char × ℕ) × ℕ) i =>
        (findOrAddInc st.1 (strMid Source i N), st.2 + 1)) st).2 := by
  induction l generalizing st with
  | nil => exact h
  | cons i t ih =>
    apply ih
    simp [findOrAddInc_sum, h]

/-- Helper: the n-gram invariant (sum of counts equals the total counter),
shared between claims. -/
lemma generateNGrams_sum (Source : List Char) (N : ℕ) :
    sumCounts (generateNGrams Source N).Grams = (generateNGrams Source N).TotalGrams := by
  unfold generateNGrams
  by_cases h : Source.length < N
  · simp [h, sumCounts]
  · simp only [h, if_false]
    exact ngramFold_sum Source N _ ([], 0) (by simp [sumCounts])

/-- Claim C3 (code evaluation): the source's `CalculateDamerauLevenshtein`
returns `-1` on the pair `("a", "a")` and on the pair `("aab", "ab")` —
a negative value, which no count of edit operations can equal (the true
unrestricted Damerau-Levenshtein distances are `0` and `1`). -/
theorem damerau_code_bug :
    calculateDamerauLevenshtein ['a'] ['a'] = -1 ∧
      calculateDamerauLevenshtein ['a', 'a', 'b'] ['a', 'b'] = -1 := by
  constructor <;> decide

/-- Claim C6: `CalculateHamming` returns the sentinel `-1` exactly when the
lengths differ, and otherwise the count of positions at which the strings
differ; the function is total, so no other failure signal exists. -/
theorem hamming_characterization (A B : List Char) :
    calculateHamming A B =
      if A.length = B.length then (hammingSpecCount A B : ℤ) else -1 := by
  unfold calculateHamming hammingSpecCount
  by_cases h : A.length = B.length
  · rw [if_neg (fun hne => hne h), if_pos h]
    exact_mod_cast congrArg Nat.cast (countP_range_eq_zip A B h)
  · rw [if_pos h, if_neg h]

/-- Claim C9: every generated n-gram set satisfies "sum of counts equals
`TotalGrams`", and a source shorter than `N` degenerates to the single
whole-string gram with count 1 and `TotalGrams` 1. -/
theorem ngrams_invariant (Source : List Char) (N : ℕ) :
    sumCounts (generateNGrams Source N).Grams = (generateNGrams Source N).TotalGrams ∧
      (Source.length < N →
        (generateNGrams Source N).Grams = [(Source, 1)] ∧
          (generateNGrams Source N).TotalGrams = 1) := by
  refine ⟨generateNGrams_sum Source N, fun h => ?_⟩
  unfold generateNGrams
  simp [h]

/-- Witness for C9 at a concrete short source. -/
theorem ngrams_invariant_witness :
    (generateNGrams ['a', 'b'] 5).Grams = [(['a', 'b'], 1)] ∧
      (generateNGrams ['a', 'b'] 5).TotalGrams = 1 :=
  (ngrams_invariant ['a', 'b'] 5).2 (by decide)

/-- Counterexample to claim C8 as stated: on the empty string the source's
empty-check precedes the identity short-circuit, so `CalculateJaro` returns
`0`, not `1`. -/
theorem jaro_empty_counterexample :
    calculateJaro [] [] = 0 ∧ calculateJaro [] [] ≠ 1 := by
  constructor <;> decide

/-- Claim C8 (amended): `CalculateJaro(s, s) = 1` for every nonempty `s`;
the empty string instead yields `0`. -/
theorem jaro_self_eq_one (s : List Char) (hs : s ≠ []) :
    calculateJaro s s = 1 := by
  unfold calculateJaro
  simp [hs]

/-- Witness for C8 at a concrete nonempty string. -/
theorem jaro_self_eq_one_witness : calculateJaro ['a'] ['a'] = 1 :=
  jaro_self_eq_one ['a'] (by decide)

/-- Claim C10: for prepared strings that are unequal and both nonempty, the
selectors `Hamming`, `OptimalAlignment`, `LCS`, `LCSS`, `Soundex` and
`Metaphone` have no case in the `GetSimilarity` switch and fall through to
the default Jaro-Winkler branch on the prepared strings. -/
theorem getSimilarity_fallthrough (A B : List Char) (alg : EREFuzzyAlgorithm)
    (norm : Bool)
    (hne : prepareString A norm ≠ prepareString B norm)
    (ha : prepareString A norm ≠ [])
    (hb : prepareString B norm ≠ [])
    (halg : alg = EREFuzzyAlgorithm.Hamming ∨ alg = EREFuzzyAlgorithm.OptimalAlignment ∨
      alg = EREFuzzyAlgorithm.LCS ∨ alg = EREFuzzyAlgorithm.LCSS ∨
      alg = EREFuzzyAlgorithm.Soundex ∨ alg = EREFuzzyAlgorithm.Metaphone) :
    getSimilarity A B alg norm =
      ((calculateJaroWinklerDefault (prepareString A norm) (prepareString B norm) : ℚ) : ℝ) := by
  have hor : ¬ (prepareString A norm = [] ∨ prepareString B norm = []) := by
    simp [ha, hb]
  rcases halg with h | h | h | h | h | h <;> subst h <;>
    simp only [getSimilarity, if_neg hne, if_neg hor]

/-- Witness for C10 at the `Hamming` selector on concrete strings. -/
theorem getSimilarity_fallthrough_witness :
    getSimilarity ['a', 'b'] ['c', 'd'] EREFuzzyAlgorithm.Hamming false =
      ((calculateJaroWinklerDefault ['a', 'b'] ['c', 'd'] : ℚ) : ℝ) :=
  getSimilarity_fallthrough ['a', 'b'] ['c', 'd'] EREFuzzyAlgorithm.Hamming false
    (by decide) (by decide) (by decide) (Or.inl rfl)

/-- Counterexample to claim C1 as stated: on equal prepared strings the
short-circuit of `CompareStrings` does not fill every score field — the
Jaro similarity and keyboard-distance scores stay `0` and the Hamming
distance stays at its `-1` default instead of `1`, `1` and `0`. -/
theorem compareStrings_perfect_counterexample :
    (compareStrings ['a'] ['a'] false).JaroSimilarity = 0 ∧
      (compareStrings ['a'] ['a'] false).HammingDistance = -1 ∧
      (compareStrings ['a'] ['a'] false).KeyboardDistance = 0 := by
  refine ⟨?_, ?_, ?_⟩ <;> simp [compareStrings, prepareString]

/-- Claim C1 (amended): when the prepared strings are equal,
`CompareStrings` short-circuits to a record with the five aggregate scores
(normalized Levenshtein, Jaro-Winkler, Dice, Jaccard, Cosine) equal to 1
and both phonetic flags true, while the Levenshtein, Damerau-Levenshtein
and optimal-alignment distances are 0, the Hamming distance keeps its `-1`
default, and the Jaro similarity and keyboard-distance scores keep their
`0` defaults. -/
theorem compareStrings_equal_shortcircuit (A B : List Char) (norm : Bool)
    (h : prepareString A norm = prepareString B norm) :
    (compareStrings A B norm).NormalizedLevenshtein = 1 ∧
      (compareStrings A B norm).JaroWinklerSimilarity = 1 ∧
      (compareStrings A B norm).DiceCoefficient = 1 ∧
      (compareStrings A B norm).JaccardIndex = 1 ∧
      (compareStrings A B norm).CosineSimilarity = 1 ∧
      (compareStrings A B norm).bSoundexMatch = true ∧
      (compareStrings A B norm).bMetaphoneMatch = true ∧
      (compareStrings A B norm).LevenshteinDistance = 0 ∧
      (compareStrings A B norm).DamerauLevenshteinDistance = 0 ∧
      (compareStrings A B norm).OptimalAlignmentDistance = 0 ∧
      (compareStrings A B norm).HammingDistance = -1 ∧
      (compareStrings A B norm).JaroSimilarity = 0 ∧
      (compareStrings A B norm).KeyboardDistance = 0 := by
  simp [compareStrings, h]

/-- Witness for C1 at concrete equal strings. -/
theorem compareStrings_equal_shortcircuit_witness :
    (compareStrings ['a'] ['a'] false).NormalizedLevenshtein = 1 ∧
      (compareStrings ['a'] ['a'] false).JaroWinklerSimilarity = 1 ∧
      (compareStrings ['a'] ['a'] false).DiceCoefficient = 1 ∧
      (compareStrings ['a'] ['a'] false).JaccardIndex = 1 ∧
      (compareStrings ['a'] ['a'] false).CosineSimilarity = 1 ∧
      (compareStrings ['a'] ['a'] false).bSoundexMatch = true ∧
      (compareStrings ['a'] ['a'] false).bMetaphoneMatch = true ∧
      (compareStrings ['a'] ['a'] false).LevenshteinDistance = 0 ∧
      (compareStrings ['a'] ['a'] false).DamerauLevenshteinDistance = 0 ∧
      (compareStrings ['a'] ['a'] false).OptimalAlignmentDistance = 0 ∧
      (compareStrings ['a'] ['a'] false).HammingDistance = -1 ∧
      (compareStrings ['a'] ['a'] false).JaroSimilarity = 0 ∧
      (compareStrings ['a'] ['a'] false).KeyboardDistance = 0 :=
  compareStrings_equal_shortcircuit ['a'] ['a'] false rfl

-- ===== Jaro invariants =====

lemma countTrue_set_true (l : List Bool) (j : ℕ) (hj : j < l.length)
    (hf : l.getD j false = false) :
    (l.set j true).count true = l.count true + 1 := by
  induction l generalizing j with
  | nil => simp at hj
  | cons b t ih =>
    cases j with
    | zero =>
      simp only [List.getD_cons_zero] at hf
      subst hf
      simp [List.count_cons]
    | succ j =>
      simp only [List.getD_cons_succ] at hf
      simp only [List.length_cons, Nat.succ_lt_succ_iff] at hj
      simp only [List.set_cons_succ, List.count_cons, ih j hj hf]
      omega

lemma getD_set_ne (l : List Bool) (i k : ℕ) (a : Bool) (h : i ≠ k) :
    (l.set i a).getD k false = l.getD k false := by
  induction l generalizing i k with
  | nil => simp
  | cons b t ih =>
    match i, k with
    | 0, 0 => exact absurd rfl h
    | 0, k + 1 => simp only [List.set_cons_zero, List.getD_cons_succ]
    | i + 1, 0 => simp only [List.set_cons_succ, List.getD_cons_zero]
    | i + 1, k + 1 =>
      simp only [List.set_cons_succ, List.getD_cons_succ]
      exact ih i k (by omega)

lemma getD_replicate_false (n k : ℕ) : (List.replicate n false).getD k false = false := by
  induction n generalizing k with
  | zero => simp
  | succ n ih => cases k <;> simp [List.replicate, ih]

lemma count_true_replicate_false (n : ℕ) : (List.replicate n false).count true = 0 := by
  induction n with
  | zero => rfl
  | succ n ih => simp [List.replicate, List.count_cons, ih]

/-- Invariants of the match-marking loop: lengths are preserved and the
match counter equals the number of marks on each side. -/
lemma jaroMatchGo_spec (B : List Char) (w : ℕ) :
    ∀ (rest : List Char) (i : ℕ) (mA mB : List Bool) (m : ℕ),
      mA.length = i + rest.length →
      mB.length = B.length →
      (∀ k, i ≤ k → mA.getD k false = false) →
      m = mA.count true →
      m = mB.count true →
      (jaroMatchGo B w i rest mA mB m).1.length = mA.length ∧
        (jaroMatchGo B w i rest mA mB m).2.1.length = mB.length ∧
        (jaroMatchGo B w i rest mA mB m).2.2 =
          (jaroMatchGo B w i rest mA mB m).1.count true ∧
        (jaroMatchGo B w i rest mA mB m).2.2 =
          (jaroMatchGo B w i rest mA mB m).2.1.count true
  | [], i, mA, mB, m, hA, hB, hfresh, hcA, hcB =>
    ⟨rfl, rfl, hcA, hcB⟩
  | c :: rest, i, mA, mB, m, hA, hB, hfresh, hcA, hcB => by
    simp only [jaroMatchGo]
    cases hfind : (List.range' (i - w) (min (i + w + 1) B.length - (i - w))).find?
        (fun j => decide (mB.getD j false = false ∧ B.get? j = some c)) with
    | none =>
      simp only [hfind]
      exact jaroMatchGo_spec B w rest (i + 1) mA mB m (by simp at hA ⊢; omega) hB
        (fun k hk => hfresh k (by omega)) hcA hcB
    | some j =>
      simp only [hfind]
      have hprop := List.find?_some hfind
      simp only [decide_eq_true_eq] at hprop
      have hjmem := List.mem_range'_1.mp (List.mem_of_find?_eq_some hfind)
      have hjB : j < B.length := by omega
      have hilt : i < mA.length := by simp at hA; omega
      have ih := jaroMatchGo_spec B w rest (i + 1) (mA.set i true) (mB.set j true) (m + 1)
        (by simp at hA ⊢; omega) (by simp [hB])
        (fun k hk => by
          rw [getD_set_ne mA i k true (by omega)]
          exact hfresh k (by omega))
        (by rw [countTrue_set_true mA i hilt (hfresh i le_rfl)]; omega)
        (by rw [countTrue_set_true mB j (by omega : j < mB.length) hprop.1]; omega)
      refine ⟨?_, ?_, ih.2.2.1, ih.2.2.2⟩
      · rw [ih.1, List.length_set]
      · rw [ih.2.1, List.length_set]

lemma countP_range'_shift (t : List Bool) (b : Bool) (n : ℕ) :
    ∀ i : ℕ, (List.range' (i + 1) n).countP (fun j => (b :: t).getD j false) =
      (List.range' i n).countP (fun j => t.getD j false) := by
  induction n with
  | zero => simp
  | succ n ih =>
    intro i
    simp only [List.range'_succ, List.countP_cons, List.getD_cons_succ, ih (i + 1)]

lemma countP_range'_getD (mA : List Bool) :
    (List.range' 0 mA.length).countP (fun j => mA.getD j false) = mA.count true := by
  induction mA with
  | nil => simp
  | cons b t ih =>
    simp only [List.length_cons, List.range'_succ, List.countP_cons, List.getD_cons_zero,
      countP_range'_shift t b t.length 0, ih, List.count_cons]
    cases b <;> simp [Nat.add_comm]

/-- The transposition counter grows by at most one per marked position. -/
lemma jaroTransGo_le (B : List Char) (mA mB : List Bool) :
    ∀ (rest : List Char) (i k t : ℕ),
      jaroTransGo B mA mB i rest k t ≤
        t + (List.range' i rest.length).countP (fun j => mA.getD j false)
  | [], i, k, t => by simp [jaroTransGo]
  | c :: rest, i, k, t => by
    simp only [jaroTransGo, List.length_cons, List.range'_succ, List.countP_cons]
    by_cases hm : mA.getD i false = false
    · rw [if_pos hm]
      have hrec := jaroTransGo_le B mA mB rest (i + 1) k t
      simp only [hm, decide_False]
      omega
    · rw [if_neg hm]
      have hm' : mA.getD i false = true := by
        cases h : mA.getD i false
        · exact absurd h hm
        · rfl
      have hrec := jaroTransGo_le B mA mB rest (i + 1) (findNextTrue mB k + 1)
        (if B.get? (findNextTrue mB k) ≠ some c then t + 1 else t)
      have ht2 : (if B.get? (findNextTrue mB k) ≠ some c then t + 1 else t) ≤ t + 1 := by
        split <;> omega
      simp only [hm', decide_True, if_true]
      omega

/-- Arithmetic bounds for the three-term Jaro average. -/
lemma jaro_formula_bounds (la lb m t : ℕ) (hla : 1 ≤ la) (hlb : 1 ≤ lb)
    (hm : 1 ≤ m) (hma : m ≤ la) (hmb : m ≤ lb) (ht : t ≤ m) :
    0 ≤ ((m : ℚ) / la + (m : ℚ) / lb + (((m : ℤ) - (t / 2 : ℕ) : ℤ) : ℚ) / m) / 3 ∧
      ((m : ℚ) / la + (m : ℚ) / lb + (((m : ℤ) - (t / 2 : ℕ) : ℤ) : ℚ) / m) / 3 ≤ 1 := by
  have hla' : (0 : ℚ) < la := by exact_mod_cast hla
  have hlb' : (0 : ℚ) < lb := by exact_mod_cast hlb
  have hm' : (0 : ℚ) < m := by exact_mod_cast hm
  have ht2 : (t / 2 : ℕ) ≤ m := le_trans (Nat.div_le_self t 2) ht
  have h1a : (m : ℚ) / la ≤ 1 := by
    rw [div_le_one hla']
    exact_mod_cast hma
  have h1b : (m : ℚ) / lb ≤ 1 := by
    rw [div_le_one hlb']
    exact_mod_cast hmb
  have h1n : (0 : ℚ) ≤ (m : ℚ) / la := by positivity
  have h2n : (0 : ℚ) ≤ (m : ℚ) / lb := by positivity
  have hnum0 : (0 : ℚ) ≤ (((m : ℤ) - (t / 2 : ℕ) : ℤ) : ℚ) := by
    have : ((t / 2 : ℕ) : ℤ) ≤ (m : ℤ) := by exact_mod_cast ht2
    have : (0 : ℤ) ≤ (m : ℤ) - (t / 2 : ℕ) := by omega
    exact_mod_cast this
  have hnum1 : (((m : ℤ) - (t / 2 : ℕ) : ℤ) : ℚ) ≤ (m : ℚ) := by
    have : ((m : ℤ) - (t / 2 : ℕ) : ℤ) ≤ (m : ℤ) := by omega
    exact_mod_cast this
  have h3a : (0 : ℚ) ≤ (((m : ℤ) - (t / 2 : ℕ) : ℤ) : ℚ) / m := by positivity
  have h3b : (((m : ℤ) - (t / 2 : ℕ) : ℤ) : ℚ) / m ≤ 1 := by
    rw [div_le_one hm']
    exact hnum1
  constructor
  · positivity
  · nlinarith

/-- Size and count facts about the match phase of `CalculateJaro`. -/
lemma jaroMatchResult_spec (A B : List Char) :
    (jaroMatchResult A B).1.length = A.length ∧
      (jaroMatchResult A B).2.1.length = B.length ∧
      (jaroMatchResult A B).2.2 = (jaroMatchResult A B).1.count true ∧
      (jaroMatchResult A B).2.2 = (jaroMatchResult A B).2.1.count true := by
  have hspec := jaroMatchGo_spec B (max (max A.length B.length / 2 - 1) 1) A 0
    (List.replicate A.length false) (List.replicate B.length false) 0
    (by simp) (by simp) (fun k _ => getD_replicate_false A.length k)
    (count_true_replicate_false A.length).symm (count_true_replicate_false B.length).symm
  simpa [jaroMatchResult] using hspec

/-- Shared bounds for `CalculateJaro`: the result always lies in `[0, 1]`. -/
lemma calculateJaro_bounds (A B : List Char) :
    0 ≤ calculateJaro A B ∧ calculateJaro A B ≤ 1 := by
  by_cases h1 : A = [] ∨ B = []
  · simp only [calculateJaro, if_pos h1]
    norm_num
  · by_cases h2 : A = B
    · simp only [calculateJaro, if_neg h1, if_pos h2]
      norm_num
    · obtain ⟨hlenA, hlenB, hcA, hcB⟩ := jaroMatchResult_spec A B
      by_cases hm0 : (jaroMatchResult A B).2.2 = 0
      · simp [calculateJaro, h1, h2, hm0]
      · have hcalc : calculateJaro A B =
            ((((jaroMatchResult A B).2.2 : ℚ)) / A.length +
              (((jaroMatchResult A B).2.2 : ℚ)) / B.length +
              ((((jaroMatchResult A B).2.2 : ℤ) -
                ((jaroTransGo B (jaroMatchResult A B).1 (jaroMatchResult A B).2.1 0 A 0 0)
                  / 2 : ℕ) : ℤ) : ℚ) / ((jaroMatchResult A B).2.2 : ℚ)) / 3 := by
          simp only [calculateJaro]
          rw [if_neg h1, if_neg h2, if_neg hm0]
        rw [hcalc]
        push_neg at h1
        have hA1 : 1 ≤ A.length := List.length_pos.mpr h1.1
        have hB1 : 1 ≤ B.length := List.length_pos.mpr h1.2
        have hm1 : 1 ≤ (jaroMatchResult A B).2.2 := Nat.one_le_iff_ne_zero.mpr hm0
        have hma : (jaroMatchResult A B).2.2 ≤ A.length := by
          rw [hcA, ← hlenA]
          exact List.count_le_length true (jaroMatchResult A B).1
        have hmb : (jaroMatchResult A B).2.2 ≤ B.length := by
          rw [hcB, ← hlenB]
          exact List.count_le_length true (jaroMatchResult A B).2.1
        have htle : jaroTransGo B (jaroMatchResult A B).1 (jaroMatchResult A B).2.1 0 A 0 0 ≤
            (jaroMatchResult A B).2.2 := by
          have hb := jaroTransGo_le B (jaroMatchResult A B).1 (jaroMatchResult A B).2.1 A 0 0 0
          rw [show A.length = (jaroMatchResult A B).1.length from hlenA.symm,
            countP_range'_getD (jaroMatchResult A B).1] at hb
          rw [hcA]
          simpa using hb
        exact jaro_formula_bounds A.length B.length (jaroMatchResult A B).2.2 _
          hA1 hB1 hm1 hma hmb htle

lemma prefixLenGo_le (f : ℕ) : ∀ (a b : List Char), prefixLenGo a b f ≤ f := by
  induction f with
  | zero =>
    intro a b
    cases a <;> cases b <;> simp [prefixLenGo]
  | succ f ih =>
    intro a b
    cases a with
    | nil => simp [prefixLenGo]
    | cons x xs =>
      cases b with
      | nil => simp [prefixLenGo]
      | cons y ys =>
        simp only [prefixLenGo]
        split
        · have := ih xs ys
          omega
        · omega

/-- The Jaro-Winkler boost is non-negative for a non-negative scale. -/
lemma calculateJaroWinkler_ge_jaro (A B : List Char) (s : ℚ) (hs : 0 ≤ s) :
    calculateJaro A B ≤ calculateJaroWinkler A B s := by
  simp only [calculateJaroWinkler]
  by_cases h : calculateJaro A B < 7 / 10
  · rw [if_pos h]
  · rw [if_neg h]
    have hj1 : calculateJaro A B ≤ 1 := (calculateJaro_bounds A B).2
    have hp : (0 : ℚ) ≤ (prefixLenGo A B (min (min A.length B.length) 4) : ℚ) :=
      Nat.cast_nonneg _
    have hb : 0 ≤ (prefixLenGo A B (min (min A.length B.length) 4) : ℚ) * s *
        (1 - calculateJaro A B) :=
      mul_nonneg (mul_nonneg hp hs) (by linarith)
    linarith

/-- Bounds for `CalculateJaroWinkler` whenever `4 * PrefixScale ≤ 1` (which
holds at the source's default `0.1`). -/
lemma calculateJaroWinkler_bounds (A B : List Char) (s : ℚ) (hs : 0 ≤ s)
    (hs4 : 4 * s ≤ 1) :
    0 ≤ calculateJaroWinkler A B s ∧ calculateJaroWinkler A B s ≤ 1 := by
  have hj0 : 0 ≤ calculateJaro A B := (calculateJaro_bounds A B).1
  have hj1 : calculateJaro A B ≤ 1 := (calculateJaro_bounds A B).2
  constructor
  · exact le_trans hj0 (calculateJaroWinkler_ge_jaro A B s hs)
  · simp only [calculateJaroWinkler]
    by_cases h : calculateJaro A B < 7 / 10
    · rw [if_pos h]
      exact hj1
    · rw [if_neg h]
      have hp4 : (prefixLenGo A B (min (min A.length B.length) 4) : ℚ) ≤ 4 := by
        have h1 : prefixLenGo A B (min (min A.length B.length) 4) ≤
            min (min A.length B.length) 4 := prefixLenGo_le _ A B
        have h2 : min (min A.length B.length) 4 ≤ 4 := min_le_right _ _
        exact_mod_cast le_trans h1 h2
      have hp0 : (0 : ℚ) ≤ (prefixLenGo A B (min (min A.length B.length) 4) : ℚ) :=
        Nat.cast_nonneg _
      have h1j : (0 : ℚ) ≤ 1 - calculateJaro A B := by linarith
      have hps : (prefixLenGo A B (min (min A.length B.length) 4) : ℚ) * s ≤ 4 * s :=
        mul_le_mul_of_nonneg_right hp4 hs
      have hps1 : (prefixLenGo A B (min (min A.length B.length) 4) : ℚ) * s ≤ 1 :=
        le_trans hps hs4
      have hboost : (prefixLenGo A B (min (min A.length B.length) 4) : ℚ) * s *
          (1 - calculateJaro A B) ≤ 1 * (1 - calculateJaro A B) :=
        mul_le_mul_of_nonneg_right hps1 h1j
      linarith

lemma calculateJaroWinklerDefault_bounds (A B : List Char) :
    0 ≤ calculateJaroWinklerDefault A B ∧ calculateJaroWinklerDefault A B ≤ 1 :=
  calculateJaroWinkler_bounds A B (1 / 10) (by norm_num) (by norm_num)

/-- Claim C7: `CalculateJaroWinkler` (at its default prefix scale) never
falls below `CalculateJaro`, and below the hard `0.7` threshold it returns
the Jaro value unchanged. -/
theorem jaroWinkler_ge_jaro (A B : List Char) :
    calculateJaro A B ≤ calculateJaroWinklerDefault A B ∧
      (calculateJaro A B < 7 / 10 →
        calculateJaroWinklerDefault A B = calculateJaro A B) := by
  constructor
  · exact calculateJaroWinkler_ge_jaro A B (1 / 10) (by norm_num)
  · intro h
    simp only [calculateJaroWinklerDefault, calculateJaroWinkler]
    rw [if_pos h]

/-- Witness for C7 on concrete dissimilar strings (Jaro value `0 < 0.7`). -/
theorem jaroWinkler_ge_jaro_witness :
    calculateJaro ['a'] ['b'] ≤ calculateJaroWinklerDefault ['a'] ['b'] ∧
      calculateJaroWinklerDefault ['a'] ['b'] = calculateJaro ['a'] ['b'] :=
  ⟨(jaroWinkler_ge_jaro ['a'] ['b']).1,
    (jaroWinkler_ge_jaro ['a'] ['b']).2
      (by rw [show calculateJaro ['a'] ['b'] = 0 from rfl]; norm_num)⟩

-- ===== Batch search =====

lemma mem_fbInsert (x p : List Char × ℝ) (l : List (List Char × ℝ)) :
    p ∈ fbInsert x l ↔ p = x ∨ p ∈ l := by
  induction l with
  | nil => simp [fbInsert]
  | cons y ys ih =>
    simp only [fbInsert]
    by_cases hxy : x.2 > y.2
    · rw [if_pos hxy]
      exact List.mem_cons
    · rw [if_neg hxy]
      simp only [List.mem_cons, ih]
      tauto

lemma length_fbInsert (x : List Char × ℝ) (l : List (List Char × ℝ)) :
    (fbInsert x l).length = l.length + 1 := by
  induction l with
  | nil => simp [fbInsert]
  | cons y ys ih =>
    simp only [fbInsert]
    by_cases hxy : x.2 > y.2
    · rw [if_pos hxy]
      simp
    · rw [if_neg hxy]
      simp [ih]

lemma pairwise_fbInsert (x : List Char × ℝ) (l : List (List Char × ℝ))
    (h : l.Pairwise (fun p q => q.2 ≤ p.2)) :
    (fbInsert x l).Pairwise (fun p q => q.2 ≤ p.2) := by
  induction l with
  | nil => simp [fbInsert]
  | cons y ys ih =>
    rw [List.pairwise_cons] at h
    simp only [fbInsert]
    by_cases hxy : x.2 > y.2
    · rw [if_pos hxy, List.pairwise_cons]
      constructor
      · intro z hz
        rcases List.mem_cons.mp hz with rfl | hz
        · exact le_of_lt hxy
        · exact le_trans (h.1 z hz) (le_of_lt hxy)
      · rw [List.pairwise_cons]
        exact h
    · rw [if_neg hxy, List.pairwise_cons]
      refine ⟨?_, ih h.2⟩
      intro z hz
      rcases (mem_fbInsert x z ys).mp hz with rfl | hz
      · exact not_lt.mp hxy
      · exact h.1 z hz

lemma mem_sortByScore (p : List Char × ℝ) (l : List (List Char × ℝ)) :
    p ∈ sortByScore l ↔ p ∈ l := by
  induction l with
  | nil => simp [sortByScore]
  | cons y ys ih =>
    show p ∈ fbInsert y (sortByScore ys) ↔ _
    rw [mem_fbInsert, ih]
    exact (List.mem_cons).symm

lemma pairwise_sortByScore (l : List (List Char × ℝ)) :
    (sortByScore l).Pairwise (fun p q => q.2 ≤ p.2) := by
  induction l with
  | nil => simp [sortByScore]
  | cons y ys ih => exact pairwise_fbInsert y (sortByScore ys) ih

/-- Every scored pair that `FindBestMatches` keeps carries the score of its
own candidate and clears the threshold. -/
lemma scored_mem_spec (Query : List Char) (Candidates : List (List Char))
    (MinSimilarity : ℝ) (Algorithm : EREFuzzyAlgorithm)
    (p : List Char × ℝ)
    (hp : p ∈ fbScored Query Candidates MinSimilarity Algorithm) :
    p.2 = getSimilarity Query p.1 Algorithm true ∧ MinSimilarity ≤ p.2 := by
  rw [fbScored, List.mem_filter] at hp
  obtain ⟨hmem, hsc⟩ := hp
  rw [List.mem_map] at hmem
  obtain ⟨c, _, rfl⟩ := hmem
  exact ⟨rfl, of_decide_eq_true hsc⟩

/-- Claim C4: the list returned by `FindBestMatches` is sorted by descending
`GetSimilarity` score (with normalization, under the requested algorithm),
every returned candidate scores at least `MinSimilarity`, and at most
`MaxResults` candidates are returned. -/
theorem findBestMatches_spec (Query : List Char) (Candidates : List (List Char))
    (MaxResults : ℕ) (MinSimilarity : ℝ) (Algorithm : EREFuzzyAlgorithm) :
    (findBestMatches Query Candidates MaxResults MinSimilarity Algorithm).Sorted
      (fun c d => getSimilarity Query d Algorithm true ≤
        getSimilarity Query c Algorithm true) ∧
    (findBestMatches Query Candidates MaxResults MinSimilarity Algorithm).Forall
      (fun c => MinSimilarity ≤ getSimilarity Query c Algorithm true) ∧
    (findBestMatches Query Candidates MaxResults MinSimilarity Algorithm).length ≤
      MaxResults := by
  set scored := fbScored Query Candidates MinSimilarity Algorithm with hscored
  set sorted := sortByScore scored with hsorted
  set k := min MaxResults sorted.length with hk
  have hres : findBestMatches Query Candidates MaxResults MinSimilarity Algorithm =
      (sorted.take k).map (fun p => p.1) := rfl
  have hmemspec : ∀ p ∈ sorted.take k,
      p.2 = getSimilarity Query p.1 Algorithm true ∧ MinSimilarity ≤ p.2 := by
    intro p hp
    exact scored_mem_spec Query Candidates MinSimilarity Algorithm p
      ((mem_sortByScore p scored).mp (List.mem_of_mem_take hp))
  have hpw' : (sorted.take k).Pairwise (fun p q => q.2 ≤ p.2) :=
    (pairwise_sortByScore scored).sublist (List.take_sublist k sorted)
  rw [hres]
  refine ⟨?_, ?_, ?_⟩
  · rw [List.Sorted, List.pairwise_map]
    refine hpw'.imp_of_mem ?_
    intro p q hp hq hle
    have hp' := hmemspec p hp
    have hq' := hmemspec q hq
    rw [← hp'.1, ← hq'.1]
    exact hle
  · rw [List.forall_iff_forall_mem]
    intro c hc
    rw [List.mem_map] at hc
    obtain ⟨p, hp, rfl⟩ := hc
    have hp' := hmemspec p hp
    rw [← hp'.1]
    exact hp'.2
  · rw [List.length_map, List.length_take]
    omega

-- ===== Levenshtein bound =====

lemma calculateLevenshtein_le (A : List Char) :
    ∀ B : List Char, calculateLevenshtein A B ≤ max A.length B.length := by
  induction A with
  | nil =>
    intro B
    simp [calculateLevenshtein]
  | cons x xs ih =>
    intro B
    cases B with
    | nil => simp [calculateLevenshtein]
    | cons y ys =>
      simp only [calculateLevenshtein, List.length_cons]
      split
      · have := ih ys
        omega
      · have h3 : min (calculateLevenshtein xs (y :: ys))
            (min (calculateLevenshtein (x :: xs) ys) (calculateLevenshtein xs ys)) ≤
            calculateLevenshtein xs ys :=
          le_trans (min_le_right _ _) (min_le_right _ _)
        have := ih ys
        omega

-- ===== Gram-map key and sum machinery =====

lemma findOrAddInc_keys (gs : List (List Char × ℕ)) (g : List Char) :
    (findOrAddInc gs g).map Prod.fst =
      if g ∈ gs.map Prod.fst then gs.map Prod.fst else gs.map Prod.fst ++ [g] := by
  induction gs with
  | nil => simp [findOrAddInc]
  | cons p t ih =>
    obtain ⟨k, v⟩ := p
    by_cases hk : k = g
    · subst hk
      simp [findOrAddInc]
    · simp only [findOrAddInc, if_neg hk, List.map_cons, List.mem_cons, ih]
      by_cases hmem : g ∈ t.map Prod.fst
      · simp [hmem, Ne.symm hk]
      · simp [hmem, Ne.symm hk]

lemma findOrAddInc_keys_nodup (gs : List (List Char × ℕ)) (g : List Char)
    (h : (gs.map Prod.fst).Nodup) : ((findOrAddInc gs g).map Prod.fst).Nodup := by
  rw [findOrAddInc_keys]
  by_cases hmem : g ∈ gs.map Prod.fst
  · simpa [hmem] using h
  · simp only [hmem, if_false]
    simp [List.nodup_append, h, hmem]

lemma ngramFold_keys_nodup (Source : List Char) (N : ℕ) (l : List ℕ) :
    ∀ st : List (List Char × ℕ) × ℕ, (st.1.map Prod.fst).Nodup →
      (((l.foldl (fun (st : List (List Char × ℕ) × ℕ) i =>
        (findOrAddInc st.1 (strMid Source i N), st.2 + 1)) st).1.map Prod.fst)).Nodup := by
  induction l with
  | nil => exact fun st h => h
  | cons i t ih =>
    intro st h
    exact ih _ (findOrAddInc_keys_nodup st.1 (strMid Source i N) h)

lemma generateNGrams_keys_nodup (Source : List Char) (N : ℕ) :
    ((generateNGrams Source N).Grams.map Prod.fst).Nodup := by
  unfold generateNGrams
  by_cases h : Source.length < N
  · simp [h]
  · simp only [h, if_false]
    exact ngramFold_keys_nodup Source N _ ([], 0) (by simp)

lemma ngramFold_total (Source : List Char) (N : ℕ) (l : List ℕ) :
    ∀ st : List (List Char × ℕ) × ℕ,
      (l.foldl (fun (st : List (List Char × ℕ) × ℕ) i =>
        (findOrAddInc st.1 (strMid Source i N), st.2 + 1)) st).2 = st.2 + l.length := by
  induction l with
  | nil => simp
  | cons i t ih =>
    intro st
    rw [List.foldl_cons, ih]
    simp only [List.length_cons]
    omega

lemma generateNGrams_total_pos (Source : List Char) (N : ℕ) :
    1 ≤ (generateNGrams Source N).TotalGrams := by
  unfold generateNGrams
  by_cases h : Source.length < N
  · simp [h]
  · simp only [h, if_false]
    rw [ngramFold_total]
    simp

lemma lkD_not_mem (B : List (List Char × ℕ)) (g : List Char)
    (h : g ∉ B.map Prod.fst) : lkD B g = 0 := by
  induction B with
  | nil => rfl
  | cons p t ih =>
    obtain ⟨k, v⟩ := p
    simp only [List.map_cons, List.mem_cons] at h
    push_neg at h
    simp only [lkD, lookupCount, List.find?_cons]
    rw [show (decide (k = g)) = false from decide_eq_false (fun he => h.1 he.symm)]
    exact ih h.2

lemma lkD_cons_ne (k : List Char) (v : ℕ) (t : List (List Char × ℕ)) (g : List Char)
    (h : k ≠ g) : lkD ((k, v) :: t) g = lkD t g := by
  simp only [lkD, lookupCount, List.find?_cons]
  rw [show (decide (k = g)) = false from decide_eq_false h]

lemma lkD_cons_eq (k : List Char) (v : ℕ) (t : List (List Char × ℕ)) :
    lkD ((k, v) :: t) k = v := by
  simp [lkD, lookupCount, List.find?_cons]

lemma lkD_eraseKey_ne (B : List (List Char × ℕ)) (g g' : List Char) (h : g' ≠ g) :
    lkD (eraseKey B g) g' = lkD B g' := by
  induction B with
  | nil => rfl
  | cons p t ih =>
    obtain ⟨k, v⟩ := p
    by_cases hk : k = g
    · subst hk
      rw [show eraseKey ((k, v) :: t) k = t from by simp [eraseKey]]
      rw [lkD_cons_ne k v t g' (fun he => h he.symm)]
    · rw [show eraseKey ((k, v) :: t) g = (k, v) :: eraseKey t g from by
        simp [eraseKey, hk]]
      by_cases hkg : k = g'
      · subst hkg
        rw [lkD_cons_eq, lkD_cons_eq]
      · rw [lkD_cons_ne k v _ g' hkg, lkD_cons_ne k v t g' hkg]
        exact ih

lemma sum_f_eraseKey_mem (f : ℕ → ℕ) (B : List (List Char × ℕ)) (g : List Char)
    (h : g ∈ B.map Prod.fst) :
    f (lkD B g) + ((eraseKey B g).map (fun p => f p.2)).sum =
      (B.map (fun p => f p.2)).sum := by
  induction B with
  | nil => simp at h
  | cons p t ih =>
    obtain ⟨k, v⟩ := p
    by_cases hk : k = g
    · subst hk
      rw [lkD_cons_eq]
      rw [show eraseKey ((k, v) :: t) k = t from by simp [eraseKey]]
      simp
    · rw [lkD_cons_ne k v t g (hk)]
      rw [show eraseKey ((k, v) :: t) g = (k, v) :: eraseKey t g from by
        simp [eraseKey, hk]]
      simp only [List.map_cons, List.sum_cons]
      have hg : g ∈ t.map Prod.fst := by
        simp only [List.map_cons, List.mem_cons] at h
        rcases h with h | h
        · exact absurd h.symm hk
        · exact h
      rw [← ih hg]
      omega

/-- Key lemma: summing any zero-at-zero function of the looked-up counts
over a duplicate-free key list is bounded by summing it over all entries. -/
lemma keyed_sum_le (f : ℕ → ℕ) (hf : f 0 = 0) :
    ∀ (ks : List (List Char)), ks.Nodup → ∀ B : List (List Char × ℕ),
      ((ks.map (fun g => f (lkD B g))).sum ≤ (B.map (fun p => f p.2)).sum) := by
  intro ks
  induction ks with
  | nil => intro _ B; simp
  | cons g t ih =>
    intro hnd B
    rw [List.nodup_cons] at hnd
    simp only [List.map_cons, List.sum_cons]
    by_cases hg : g ∈ B.map Prod.fst
    · have hrw : (t.map (fun g' => f (lkD B g'))).sum =
          (t.map (fun g' => f (lkD (eraseKey B g) g'))).sum := by
        apply congrArg
        apply List.map_congr_left
        intro g' hg'
        rw [lkD_eraseKey_ne B g g' (fun he => hnd.1 (he ▸ hg'))]
      rw [hrw]
      have h1 := ih hnd.2 (eraseKey B g)
      have h2 := sum_f_eraseKey_mem f B g hg
      omega
    · rw [lkD_not_mem B g hg, hf]
      have h1 := ih hnd.2 B
      omega

-- ===== Dice bounds =====

lemma dice_inter_rewrite (GA GB : List (List Char × ℕ)) :
    (GA.map (fun p => match lookupCount GB p.1 with
      | some cB => min p.2 cB
      | none => 0)).sum =
    (GA.map (fun p => min p.2 (lkD GB p.1))).sum := by
  apply congrArg
  apply List.map_congr_left
  intro p _
  cases h : lookupCount GB p.1 with
  | none => simp [lkD, h]
  | some cB => simp [lkD, h]

lemma dice_inter_le_A (GA GB : List (List Char × ℕ)) :
    (GA.map (fun p => min p.2 (lkD GB p.1))).sum ≤ sumCounts GA := by
  unfold sumCounts
  apply List.sum_le_sum
  intro p _
  exact min_le_left _ _

lemma dice_inter_le_B (GA GB : List (List Char × ℕ))
    (hA : (GA.map Prod.fst).Nodup) :
    (GA.map (fun p => min p.2 (lkD GB p.1))).sum ≤ sumCounts GB := by
  have h1 : (GA.map (fun p => min p.2 (lkD GB p.1))).sum ≤
      (GA.map (fun p => lkD GB p.1)).sum := by
    apply List.sum_le_sum
    intro p _
    exact min_le_right _ _
  have h2 : (GA.map (fun p => lkD GB p.1)).sum =
      ((GA.map Prod.fst).map (fun g => lkD GB g)).sum := by
    rw [List.map_map]
    rfl
  have h3 := keyed_sum_le (fun x => x) rfl (GA.map Prod.fst) hA GB
  unfold sumCounts
  calc (GA.map (fun p => min p.2 (lkD GB p.1))).sum
      ≤ (GA.map (fun p => lkD GB p.1)).sum := h1
    _ = ((GA.map Prod.fst).map (fun g => lkD GB g)).sum := h2
    _ ≤ (GB.map (fun p => p.2)).sum := h3

/-- Shared bounds for `CalculateDice`. -/
lemma calculateDice_bounds (A B : List Char) (N : ℕ) :
    0 ≤ calculateDice A B N ∧ calculateDice A B N ≤ 1 := by
  by_cases h1 : A = [] ∨ B = []
  · simp only [calculateDice, if_pos h1]
    norm_num
  · by_cases h2 : A = B
    · simp only [calculateDice, if_neg h1, if_pos h2]
      norm_num
    · have hrw : calculateDice A B N =
          (2 * (((((generateNGrams A N).Grams.map (fun p => match
            lookupCount (generateNGrams B N).Grams p.1 with
            | some cB => min p.2 cB
            | none => 0)).sum : ℕ)) : ℚ)) /
          (((generateNGrams A N).TotalGrams : ℚ) + ((generateNGrams B N).TotalGrams : ℚ)) := by
        simp only [calculateDice]
        rw [if_neg h1, if_neg h2]
      rw [hrw, dice_inter_rewrite]
      have hIA := dice_inter_le_A (generateNGrams A N).Grams (generateNGrams B N).Grams
      have hIB := dice_inter_le_B (generateNGrams A N).Grams (generateNGrams B N).Grams
        (generateNGrams_keys_nodup A N)
      have hTA : sumCounts (generateNGrams A N).Grams = (generateNGrams A N).TotalGrams :=
        generateNGrams_sum A N
      have hTB : sumCounts (generateNGrams B N).Grams = (generateNGrams B N).TotalGrams :=
        generateNGrams_sum B N
      have hTA1 := generateNGrams_total_pos A N
      have hTB1 := generateNGrams_total_pos B N
      rw [hTA] at hIA
      rw [hTB] at hIB
      have hden : (0 : ℚ) <
          ((generateNGrams A N).TotalGrams : ℚ) + ((generateNGrams B N).TotalGrams : ℚ) := by
        have : (1 : ℚ) ≤ ((generateNGrams A N).TotalGrams : ℚ) := by exact_mod_cast hTA1
        have : (1 : ℚ) ≤ ((generateNGrams B N).TotalGrams : ℚ) := by exact_mod_cast hTB1
        linarith [show (1 : ℚ) ≤ ((generateNGrams A N).TotalGrams : ℚ) from by exact_mod_cast hTA1]
      constructor
      · apply div_nonneg _ (le_of_lt hden)
        positivity
      · rw [div_le_one hden]
        have hIA' : (((generateNGrams A N).Grams.map
            (fun p => min p.2 (lkD (generateNGrams B N).Grams p.1))).sum : ℚ) ≤
            ((generateNGrams A N).TotalGrams : ℚ) := by exact_mod_cast hIA
        have hIB' : (((generateNGrams A N).Grams.map
            (fun p => min p.2 (lkD (generateNGrams B N).Grams p.1))).sum : ℚ) ≤
            ((generateNGrams B N).TotalGrams : ℚ) := by exact_mod_cast hIB
        linarith

-- ===== Jaccard bounds =====

/-- Shared bounds for `CalculateJaccard`. -/
lemma calculateJaccard_bounds (A B : List Char) (N : ℕ) :
    0 ≤ calculateJaccard A B N ∧ calculateJaccard A B N ≤ 1 := by
  by_cases h1 : A = [] ∨ B = []
  · simp only [calculateJaccard, if_pos h1]
    norm_num
  · by_cases h2 : A = B
    · simp only [calculateJaccard, if_neg h1, if_pos h2]
      norm_num
    · simp only [calculateJaccard]
      rw [if_neg h1, if_neg h2]
      set keysA := (generateNGrams A N).Grams.map (fun p => p.1) with hkA
      set keysB := (generateNGrams B N).Grams.map (fun p => p.1) with hkB
      set unionS := keysA.toFinset ∪ keysB.toFinset with hU
      set interS := (keysA.filter
        (fun g => decide (lookupCount (generateNGrams B N).Grams g ≠ none))).toFinset with hI
      by_cases hc : unionS.card = 0
      · rw [if_pos hc]
        norm_num
      · rw [if_neg hc]
        have hsub : interS ⊆ unionS := by
          intro x hx
          rw [hI, List.mem_toFinset, List.mem_filter] at hx
          rw [hU, Finset.mem_union, List.mem_toFinset]
          exact Or.inl hx.1
        have hcard := Finset.card_le_card hsub
        have hpos : (0 : ℚ) < unionS.card := by
          have : 0 < unionS.card := Nat.pos_of_ne_zero hc
          exact_mod_cast this
        constructor
        · positivity
        · rw [div_le_one hpos]
          exact_mod_cast hcard

-- ===== Cosine bounds (Cauchy-Schwarz) =====

lemma two_mul_le_of_sq (a b S X Y : ℚ) (ha : 0 ≤ a) (hb : 0 ≤ b) (hS : 0 ≤ S)
    (hX : 0 ≤ X) (hY : 0 ≤ Y) (hSXY : S ^ 2 ≤ X * Y) :
    2 * a * b * S ≤ a ^ 2 * Y + b ^ 2 * X := by
  have hub : 0 ≤ a ^ 2 * Y + b ^ 2 * X := by positivity
  have hls : 0 ≤ 2 * a * b * S := by positivity
  have hmul : a ^ 2 * b ^ 2 * S ^ 2 ≤ a ^ 2 * b ^ 2 * (X * Y) :=
    mul_le_mul_of_nonneg_left hSXY (by positivity)
  have hsq : (2 * a * b * S) ^ 2 ≤ (a ^ 2 * Y + b ^ 2 * X) ^ 2 := by
    nlinarith [sq_nonneg (a ^ 2 * Y - b ^ 2 * X)]
  exact (pow_le_pow_iff_left hls hub two_ne_zero).mp hsq

lemma sum_map_nonneg (l : List (ℚ × ℚ)) (f : ℚ × ℚ → ℚ)
    (h : ∀ p ∈ l, 0 ≤ f p) : 0 ≤ (l.map f).sum := by
  induction l with
  | nil => simp
  | cons p t ih =>
    simp only [List.map_cons, List.sum_cons]
    have h1 := h p (List.mem_cons_self p t)
    have h2 := ih (fun q hq => h q (List.mem_cons_of_mem p hq))
    linarith

/-- Cauchy-Schwarz for lists of non-negative rational pairs. -/
lemma list_cauchy_schwarz (l : List (ℚ × ℚ)) (h : ∀ p ∈ l, 0 ≤ p.1 ∧ 0 ≤ p.2) :
    ((l.map (fun p => p.1 * p.2)).sum) ^ 2 ≤
      ((l.map (fun p => p.1 ^ 2)).sum) * ((l.map (fun p => p.2 ^ 2)).sum) := by
  induction l with
  | nil => simp
  | cons p t ih =>
    obtain ⟨a, b⟩ := p
    have hab := h (a, b) (List.mem_cons_self _ t)
    have ht : ∀ q ∈ t, 0 ≤ q.1 ∧ 0 ≤ q.2 := fun q hq => h q (List.mem_cons_of_mem _ hq)
    have hS : 0 ≤ (t.map (fun p => p.1 * p.2)).sum :=
      sum_map_nonneg t _ (fun q hq => mul_nonneg (ht q hq).1 (ht q hq).2)
    have hX : 0 ≤ (t.map (fun p => p.1 ^ 2)).sum :=
      sum_map_nonneg t _ (fun q _ => sq_nonneg q.1)
    have hY : 0 ≤ (t.map (fun p => p.2 ^ 2)).sum :=
      sum_map_nonneg t _ (fun q _ => sq_nonneg q.2)
    have hih := ih ht
    set S := (t.map (fun p => p.1 * p.2)).sum with hSdef
    set X := (t.map (fun p => p.1 ^ 2)).sum with hXdef
    set Y := (t.map (fun p => p.2 ^ 2)).sum with hYdef
    have hkey := two_mul_le_of_sq a b S X Y hab.1 hab.2 hS hX hY hih
    simp only [List.map_cons, List.sum_cons]
    nlinarith [hih, hkey]

lemma cast_sum_map {α : Type} (l : List α) (f : α → ℕ) :
    (((l.map f).sum : ℕ) : ℚ) = (l.map (fun x => (f x : ℚ))).sum := by
  induction l with
  | nil => simp
  | cons x t ih =>
    simp only [List.map_cons, List.sum_cons, Nat.cast_add, ih]

lemma cosineDot_eq (GA GB : List (List Char × ℕ)) :
    cosineDot GA GB = (GA.map (fun p => p.2 * lkD GB p.1)).sum := by
  unfold cosineDot
  apply congrArg
  apply List.map_congr_left
  intro p _
  cases h : lookupCount GB p.1 with
  | none => simp [lkD, h]
  | some cB => simp [lkD, h]

/-- Cauchy-Schwarz instantiated for the gram-count vectors of
`CalculateCosine`. -/
lemma cosine_cs (GA GB : List (List Char × ℕ)) (hA : (GA.map Prod.fst).Nodup) :
    ((cosineDot GA GB : ℕ) : ℚ) ^ 2 ≤
      ((cosineMagSq GA : ℕ) : ℚ) * ((cosineMagSq GB : ℕ) : ℚ) := by
  rw [cosineDot_eq, cast_sum_map]
  set l : List (ℚ × ℚ) := GA.map (fun p => ((p.2 : ℚ), (lkD GB p.1 : ℚ))) with hl
  have hdot : (GA.map (fun x => ((x.2 * lkD GB x.1 : ℕ) : ℚ))).sum =
      (l.map (fun p => p.1 * p.2)).sum := by
    rw [hl, List.map_map]
    apply congrArg
    apply List.map_congr_left
    intro p _
    push_cast
    rfl
  have hmagA : ((cosineMagSq GA : ℕ) : ℚ) = (l.map (fun p => p.1 ^ 2)).sum := by
    unfold cosineMagSq
    rw [cast_sum_map, hl, List.map_map]
    apply congrArg
    apply List.map_congr_left
    intro p _
    simp only [Function.comp_apply]
    push_cast
    ring
  have hlk : (l.map (fun p => p.2 ^ 2)).sum ≤ ((cosineMagSq GB : ℕ) : ℚ) := by
    have hn := keyed_sum_le (fun x => x * x) rfl (GA.map Prod.fst) hA GB
    have hcast : (l.map (fun p => p.2 ^ 2)).sum =
        ((((GA.map Prod.fst).map (fun g => lkD GB g * lkD GB g)).sum : ℕ) : ℚ) := by
      rw [cast_sum_map, hl, List.map_map, List.map_map]
      apply congrArg
      apply List.map_congr_left
      intro p _
      simp only [Function.comp_apply]
      push_cast
      ring
    rw [hcast]
    unfold cosineMagSq
    exact_mod_cast hn
  have hcs := list_cauchy_schwarz l (by
    rw [hl]
    intro p hp
    rw [List.mem_map] at hp
    obtain ⟨q, _, rfl⟩ := hp
    exact ⟨Nat.cast_nonneg _, Nat.cast_nonneg _⟩)
  have hX : (0 : ℚ) ≤ (l.map (fun p => p.1 ^ 2)).sum :=
    sum_map_nonneg l _ (fun q _ => sq_nonneg q.1)
  rw [hdot, hmagA]
  calc ((l.map (fun p => p.1 * p.2)).sum) ^ 2
      ≤ ((l.map (fun p => p.1 ^ 2)).sum) * ((l.map (fun p => p.2 ^ 2)).sum) := hcs
    _ ≤ ((l.map (fun p => p.1 ^ 2)).sum) * ((cosineMagSq GB : ℕ) : ℚ) :=
        mul_le_mul_of_nonneg_left hlk hX

/-- Shared bounds for `CalculateCosine`. -/
lemma calculateCosine_bounds (A B : List Char) (N : ℕ) :
    0 ≤ calculateCosine A B N ∧ calculateCosine A B N ≤ 1 := by
  by_cases h1 : A = [] ∨ B = []
  · simp only [calculateCosine, if_pos h1]
    norm_num
  · by_cases h2 : A = B
    · simp only [calculateCosine, if_neg h1, if_pos h2]
      norm_num
    · simp only [calculateCosine]
      rw [if_neg h1, if_neg h2]
      set GA := (generateNGrams A N).Grams with hGA
      set GB := (generateNGrams B N).Grams with hGB
      by_cases h3 : cosineMagSq GA = 0 ∨ cosineMagSq GB = 0
      · rw [if_pos h3]
        norm_num
      · rw [if_neg h3]
        push_neg at h3
        have hmA : (0 : ℝ) < (cosineMagSq GA : ℝ) := by
          have := Nat.pos_of_ne_zero h3.1
          exact_mod_cast this
        have hmB : (0 : ℝ) < (cosineMagSq GB : ℝ) := by
          have := Nat.pos_of_ne_zero h3.2
          exact_mod_cast this
        have hsA : (0 : ℝ) < Real.sqrt (cosineMagSq GA : ℝ) := Real.sqrt_pos.mpr hmA
        have hsB : (0 : ℝ) < Real.sqrt (cosineMagSq GB : ℝ) := Real.sqrt_pos.mpr hmB
        have hden : (0 : ℝ) < Real.sqrt (cosineMagSq GA : ℝ) * Real.sqrt (cosineMagSq GB : ℝ) :=
          mul_pos hsA hsB
        constructor
        · exact div_nonneg (Nat.cast_nonneg _) (le_of_lt hden)
        · rw [div_le_one hden]
          have hcsQ := cosine_cs GA GB (hGA ▸ generateNGrams_keys_nodup A N)
          have hcsR : ((cosineDot GA GB : ℕ) : ℝ) ^ 2 ≤
              ((cosineMagSq GA : ℕ) : ℝ) * ((cosineMagSq GB : ℕ) : ℝ) := by
            exact_mod_cast hcsQ
          have hsq : (Real.sqrt (cosineMagSq GA : ℝ) * Real.sqrt (cosineMagSq GB : ℝ)) ^ 2 =
              ((cosineMagSq GA : ℕ) : ℝ) * ((cosineMagSq GB : ℕ) : ℝ) := by
            rw [mul_pow, Real.sq_sqrt (le_of_lt hmA), Real.sq_sqrt (le_of_lt hmB)]
          exact (pow_le_pow_iff_left (Nat.cast_nonneg _) (le_of_lt hden) two_ne_zero).mp
            (by rw [hsq]; exact hcsR)

-- ===== BestSimilarity bounds (claim C2) =====

lemma normLev_bounds (a b : List Char) (ha : a ≠ []) (hb : b ≠ []) :
    0 ≤ 1 - (calculateLevenshtein a b : ℚ) / (max a.length b.length : ℚ) ∧
      1 - (calculateLevenshtein a b : ℚ) / (max a.length b.length : ℚ) ≤ 1 := by
  have hmax : (0 : ℚ) < (max a.length b.length : ℚ) := by
    have h1 : 1 ≤ a.length := List.length_pos.mpr ha
    have : 1 ≤ max a.length b.length := le_trans h1 (le_max_left _ _)
    exact_mod_cast Nat.lt_of_lt_of_le Nat.zero_lt_one this
  have hlev0 : (0 : ℚ) ≤ (calculateLevenshtein a b : ℚ) := Nat.cast_nonneg _
  have hlevle : (calculateLevenshtein a b : ℚ) ≤ (max a.length b.length : ℚ) := by
    exact_mod_cast calculateLevenshtein_le a b
  constructor
  · have h := (div_le_one hmax).mpr hlevle
    linarith
  · have h := div_nonneg hlev0 (le_of_lt hmax)
    linarith

/-- On every path of `CompareStrings`, the five aggregate score fields lie
in `[0, 1]`. -/
lemma compareStrings_field_bounds (A B : List Char) (norm : Bool) :
    (0 ≤ (compareStrings A B norm).NormalizedLevenshtein ∧
      (compareStrings A B norm).NormalizedLevenshtein ≤ 1) ∧
    (0 ≤ (compareStrings A B norm).JaroWinklerSimilarity ∧
      (compareStrings A B norm).JaroWinklerSimilarity ≤ 1) ∧
    (0 ≤ (compareStrings A B norm).DiceCoefficient ∧
      (compareStrings A B norm).DiceCoefficient ≤ 1) ∧
    (0 ≤ (compareStrings A B norm).JaccardIndex ∧
      (compareStrings A B norm).JaccardIndex ≤ 1) ∧
    (0 ≤ (compareStrings A B norm).CosineSimilarity ∧
      (compareStrings A B norm).CosineSimilarity ≤ 1) := by
  by_cases h1 : prepareString A norm = prepareString B norm
  · simp only [compareStrings, if_pos h1]
    norm_num
  · by_cases h2 : prepareString A norm = [] ∨ prepareString B norm = []
    · simp only [compareStrings, if_neg h1, if_pos h2]
      norm_num
    · push_neg at h2
      have hrec :
          (compareStrings A B norm).NormalizedLevenshtein =
            1 - (calculateLevenshtein (prepareString A norm) (prepareString B norm) : ℚ) /
              (max (prepareString A norm).length (prepareString B norm).length : ℚ) ∧
          (compareStrings A B norm).JaroWinklerSimilarity =
            calculateJaroWinklerDefault (prepareString A norm) (prepareString B norm) ∧
          (compareStrings A B norm).DiceCoefficient =
            calculateDice (prepareString A norm) (prepareString B norm) 2 ∧
          (compareStrings A B norm).JaccardIndex =
            calculateJaccard (prepareString A norm) (prepareString B norm) 2 ∧
          (compareStrings A B norm).CosineSimilarity =
            calculateCosine (prepareString A norm) (prepareString B norm) 2 := by
        simp [compareStrings, if_neg h1, if_neg (by simp [h2.1, h2.2] :
          ¬ (prepareString A norm = [] ∨ prepareString B norm = []))]
      rw [hrec.1, hrec.2.1, hrec.2.2.1, hrec.2.2.2.1, hrec.2.2.2.2]
      exact ⟨normLev_bounds _ _ h2.1 h2.2, calculateJaroWinklerDefault_bounds _ _,
        calculateDice_bounds _ _ 2, calculateJaccard_bounds _ _ 2,
        calculateCosine_bounds _ _ 2⟩

/-- `GetBestSimilarity` stays in `[0, 1]` when its five inputs do. -/
lemma getBest_bounds (r : FREStringMatch)
    (h1 : 0 ≤ r.NormalizedLevenshtein ∧ r.NormalizedLevenshtein ≤ 1)
    (h2 : 0 ≤ r.JaroWinklerSimilarity ∧ r.JaroWinklerSimilarity ≤ 1)
    (h3 : 0 ≤ r.DiceCoefficient ∧ r.DiceCoefficient ≤ 1)
    (h4 : 0 ≤ r.JaccardIndex ∧ r.JaccardIndex ≤ 1)
    (h5 : 0 ≤ r.CosineSimilarity ∧ r.CosineSimilarity ≤ 1) :
    0 ≤ r.GetBestSimilarity ∧ r.GetBestSimilarity ≤ 1 := by
  unfold FREStringMatch.GetBestSimilarity
  constructor
  · apply le_max_of_le_left
    apply le_max_of_le_left
    apply le_max_of_le_left
    apply le_max_of_le_left
    exact_mod_cast h1.1
  · apply max_le (max_le (max_le (max_le ?_ ?_) ?_) ?_) ?_
    · exact_mod_cast h1.2
    · exact_mod_cast h2.2
    · exact_mod_cast h3.2
    · exact_mod_cast h4.2
    · exact h5.2

/-- Claim C2 (amended): for every algorithm selector other than `Hamming`
and `DamerauLevenshtein`, the `BestSimilarity` field that
`CompareStringsWithAlgo` fills lies in `[0, 1]`. -/
theorem bestSimilarity_bounds (A B : List Char) (alg : EREFuzzyAlgorithm) (norm : Bool)
    (hH : alg ≠ EREFuzzyAlgorithm.Hamming)
    (hD : alg ≠ EREFuzzyAlgorithm.DamerauLevenshtein) :
    0 ≤ (compareStringsWithAlgo A B alg norm).BestSimilarity ∧
      (compareStringsWithAlgo A B alg norm).BestSimilarity ≤ 1 := by
  obtain ⟨hNL, hJW, hDc, hJc, hCs⟩ := compareStrings_field_bounds A B norm
  have hbest := getBest_bounds (compareStrings A B norm) hNL hJW hDc hJc hCs
  cases alg with
  | Hamming => exact absurd rfl hH
  | DamerauLevenshtein => exact absurd rfl hD
  | Levenshtein =>
    simp only [compareStringsWithAlgo]
    exact ⟨by exact_mod_cast hNL.1, by exact_mod_cast hNL.2⟩
  | JaroWinkler =>
    simp only [compareStringsWithAlgo]
    exact ⟨by exact_mod_cast hJW.1, by exact_mod_cast hJW.2⟩
  | Dice =>
    simp only [compareStringsWithAlgo]
    exact ⟨by exact_mod_cast hDc.1, by exact_mod_cast hDc.2⟩
  | Jaccard =>
    simp only [compareStringsWithAlgo]
    exact ⟨by exact_mod_cast hJc.1, by exact_mod_cast hJc.2⟩
  | Cosine =>
    simp only [compareStringsWithAlgo]
    exact hCs
  | Soundex =>
    simp only [compareStringsWithAlgo]
    split <;> norm_num
  | Metaphone =>
    simp only [compareStringsWithAlgo]
    split <;> norm_num
  | OptimalAlignment =>
    simp only [compareStringsWithAlgo]
    exact hbest
  | Jaro =>
    simp only [compareStringsWithAlgo]
    exact hbest
  | LCS =>
    simp only [compareStringsWithAlgo]
    exact hbest
  | LCSS =>
    simp only [compareStringsWithAlgo]
    exact hbest
  | KeyboardDistance =>
    simp only [compareStringsWithAlgo]
    exact hbest
  | Auto =>
    simp only [compareStringsWithAlgo]
    exact hbest

/-- Witness for C2 at a concrete selector and strings. -/
theorem bestSimilarity_bounds_witness :
    0 ≤ (compareStringsWithAlgo ['a'] ['b'] EREFuzzyAlgorithm.JaroWinkler
      false).BestSimilarity ∧
    (compareStringsWithAlgo ['a'] ['b'] EREFuzzyAlgorithm.JaroWinkler
      false).BestSimilarity ≤ 1 :=
  bestSimilarity_bounds ['a'] ['b'] EREFuzzyAlgorithm.JaroWinkler false
    (by decide) (by decide)

/-- Counterexample to claim C2 as stated: the `Hamming` selector divides the
`-1` sentinel by the raw length, giving `BestSimilarity = 2 > 1` on equal
strings, and the `DamerauLevenshtein` selector divides the broken negative
distance (see C3) by the raw length, giving `4/3 > 1`. -/
theorem bestSimilarity_counterexample :
    (compareStringsWithAlgo ['a'] ['a'] EREFuzzyAlgorithm.Hamming
      false).BestSimilarity = 2 ∧
    ¬ ((compareStringsWithAlgo ['a'] ['a'] EREFuzzyAlgorithm.Hamming
      false).BestSimilarity ≤ 1) ∧
    (compareStringsWithAlgo ['a', 'a', 'b'] ['a', 'b']
      EREFuzzyAlgorithm.DamerauLevenshtein false).BestSimilarity = 4 / 3 ∧
    ¬ ((compareStringsWithAlgo ['a', 'a', 'b'] ['a', 'b']
      EREFuzzyAlgorithm.DamerauLevenshtein false).BestSimilarity ≤ 1) := by
  have hHam : (compareStringsWithAlgo ['a'] ['a'] EREFuzzyAlgorithm.Hamming
      false).BestSimilarity = 2 := by
    simp only [compareStringsWithAlgo, compareStrings, prepareString]
    norm_num
  have hDam : (compareStringsWithAlgo ['a', 'a', 'b'] ['a', 'b']
      EREFuzzyAlgorithm.DamerauLevenshtein false).BestSimilarity = 4 / 3 := by
    have hdl : calculateDamerauLevenshtein ['a', 'a', 'b'] ['a', 'b'] = -1 := by decide
    have hne : (['a', 'a', 'b'] : List Char) ≠ ['a', 'b'] := by decide
    simp [compareStringsWithAlgo, compareStrings, prepareString, hne, hdl]
    norm_num
  refine ⟨hHam, ?_, hDam, ?_⟩
  · rw [hHam]
    norm_num
  · rw [hDam]
    norm_num

end REProof

